import Mathlib

/-!
# Keyword path search of the versioned key-value backend

A shallow embedding of `path_search.go` (`pathSearchListRecursive` and
`recursiveLookup`) together with the string helpers of the Go standard
library that the two functions call, and the properties of the search that
follow from the code.

Modelling choices.

* A Go `string` is taken to be the list of its characters.  The helpers used
  by the source (`strings.Trim` with the one-byte cutset `"/"`,
  `strings.Contains`, `strings.HasSuffix`, `+`) act position by position, so
  nothing else of the representation matters.
* `es.List(ctx, path)` has the Go result type `([]string, error)`.  It is
  embedded as a function returning the pair of both results, the error being
  `none` for `nil`; a lister is free to return entries together with an error.
* `recursiveLookup` follows whatever the lister returns, so it need not
  terminate.  The embedding takes a step budget (`fuel`), decreasing at every
  call; `none` means the budget ran out, `some r` is the value returned by the
  Go function.
* The value returned carries, next to the two Go results, the sequence of
  paths handed to `es.List`, in the order of the calls.
-/

namespace KvSearch

/-! ## Strings -/

/-- A Go string, as the list of its characters. -/
abbrev GoString := List Char

/-- The separator `"/"`, used by the source as cutset, as suffix and as root path. -/
def sep : GoString := ['/']

/-- Go `strings.TrimLeft(s, cutset)`: drops the leading characters that occur in `cutset`. -/
def TrimLeft (s cutset : GoString) : GoString :=
  s.dropWhile (fun c => cutset.elem c)

/-- Go `strings.TrimRight(s, cutset)`: drops the trailing characters that occur in `cutset`. -/
def TrimRight (s cutset : GoString) : GoString :=
  (s.reverse.dropWhile (fun c => cutset.elem c)).reverse

/-- Go `strings.Trim(s, cutset)`: `TrimLeft` of `TrimRight`, as in the standard library. -/
def Trim (s cutset : GoString) : GoString :=
  TrimLeft (TrimRight s cutset) cutset

/-- Go `strings.HasPrefix(s, p)`. -/
def HasPrefix (s p : GoString) : Bool :=
  p.isPrefixOf s

/-- Go `strings.HasSuffix(s, suffix)`. -/
def HasSuffix (s suffix : GoString) : Bool :=
  suffix.isSuffixOf s

/-- Go `strings.Contains(s, substr)`: `substr` occurs in `s` at some position. -/
def Contains : GoString → GoString → Bool
  | [], substr => substr.isEmpty
  | c :: s, substr => HasPrefix (c :: s) substr || Contains s substr

/-! ## The lister and the search -/

/-- The capability `es.List(ctx, path)`: the entries and the error it returns. -/
abbrev Lister (E : Type) := GoString → List GoString × Option E

/-- What a call returns: the keys, the error, and the paths passed to `es.List`. -/
structure LookupResult (E : Type) where
  keys : List GoString
  err : Option E
  calls : List GoString
  deriving DecidableEq, Repr

/-- The `for _, key := range keys` loop of `recursiveLookup`, entered with the
accumulator `lookedUpKeys` and the listing calls made so far `calls`. -/
def recursiveLookupLoop {E : Type} (es : Lister E) (secretName : GoString) :
    Nat → GoString → List GoString → List GoString → List GoString → Option (LookupResult E)
  | 0, _, _, _, _ => none
  | _ + 1, _, lookedUpKeys, calls, [] => some ⟨lookedUpKeys, none, calls⟩
  | fuel + 1, path, lookedUpKeys, calls, key :: keys =>
    let fullPath := path ++ key
    let lookedUpKeys :=
      if Contains (Trim key sep) secretName then lookedUpKeys ++ [fullPath] else lookedUpKeys
    if HasSuffix key sep then
      match es fullPath with
      | (_, some err) => some ⟨lookedUpKeys, some err, calls ++ [fullPath]⟩
      | (subFolderKeys, none) =>
        match recursiveLookupLoop es secretName fuel fullPath [] [] subFolderKeys with
        | none => none
        | some sub =>
          match sub.err with
          | some err => some ⟨lookedUpKeys, some err, calls ++ fullPath :: sub.calls⟩
          | none =>
            recursiveLookupLoop es secretName fuel path (lookedUpKeys ++ sub.keys)
              (calls ++ fullPath :: sub.calls) keys
    else
      recursiveLookupLoop es secretName fuel path lookedUpKeys calls keys

/-- Go `recursiveLookup(ctx, path, secretName, keys, es)`: the loop started
with `var lookedUpKeys []string`. -/
def recursiveLookup {E : Type} (es : Lister E) (secretName : GoString) (fuel : Nat)
    (path : GoString) (keys : List GoString) : Option (LookupResult E) :=
  recursiveLookupLoop es secretName fuel path [] [] keys

/-- The body of the handler once the keyword is trimmed (the `Search` of the
specification): list the root `"/"`, return the listed keys with the error if
that fails, otherwise run `recursiveLookup` from `"/"`. -/
def Search {E : Type} (es : Lister E) (keyword : GoString) (fuel : Nat) :
    Option (LookupResult E) :=
  match es sep with
  | (keys, some err) => some ⟨keys, some err, [sep]⟩
  | (keys, none) =>
    match recursiveLookup es keyword fuel sep keys with
    | none => none
    | some r => some ⟨r.keys, r.err, sep :: r.calls⟩

/-- The handler `pathSearchListRecursive`, given the storage `es`: the keyword
field is trimmed of `"/"` and searched. -/
def pathSearchListRecursive {E : Type} (es : Lister E) (fuel : Nat) (keywordField : GoString) :
    Option (LookupResult E) :=
  Search es (Trim keywordField sep) fuel

/-! ## Example stores -/

/-- The store of the tests, holding the single secret `a/b/foo`. -/
def storeABFoo : Lister String := fun path =>
  if path = "/".toList then (["a/".toList], none)
  else if path = "/a/".toList then (["b/".toList], none)
  else if path = "/a/b/".toList then (["foo".toList], none)
  else ([], none)

/-- The store of the tests after `a/b/foo` is deleted: nothing is listed. -/
def storeEmpty : Lister String := fun _ => ([], none)

/-! ## Results and accumulators -/

/-- The path reported for one entry: its full path when the trimmed name contains the keyword. -/
def ownMatch (secretName path key : GoString) : List GoString :=
  if Contains (Trim key sep) secretName then [path ++ key] else []

/-- Prepends an accumulator and earlier calls to a result. -/
def LookupResult.shift {E : Type} (acc calls : List GoString) (r : LookupResult E) :
    LookupResult E :=
  ⟨acc ++ r.keys, r.err, calls ++ r.calls⟩

/-! ## Finite hierarchies -/

/-- A finite hierarchy below one path: the entries of a listing in listing
order, each a leaf, a folder with the listing below it, or a folder whose own
listing fails with an error. -/
inductive Listing (E : Type) where
  | nil : Listing E
  | leaf (name : GoString) (rest : Listing E) : Listing E
  | folder (name : GoString) (sub : Listing E) (rest : Listing E) : Listing E
  | failing (name : GoString) (err : E) (rest : Listing E) : Listing E

/-- The entry names of a listing, as `es.List` returns them. -/
def Listing.names {E : Type} : Listing E → List GoString
  | .nil => []
  | .leaf name rest => name :: rest.names
  | .folder name _ rest => name :: rest.names
  | .failing name _ rest => name :: rest.names

/-- The number of entries of a hierarchy, at all depths. -/
def Listing.size {E : Type} : Listing E → Nat
  | .nil => 0
  | .leaf _ rest => 1 + rest.size
  | .folder _ sub rest => 1 + sub.size + rest.size
  | .failing _ _ rest => 1 + rest.size

/-- The lister `es` describes the hierarchy `t` below `path`: leaves carry no
trailing separator, folders do, the listing of a folder succeeds with exactly
the names of its entries, and the listing of a failing folder returns its error. -/
def Describes {E : Type} (es : Lister E) : GoString → Listing E → Prop
  | _, .nil => True
  | path, .leaf name rest => HasSuffix name sep = false ∧ Describes es path rest
  | path, .folder name sub rest =>
    HasSuffix name sep = true ∧ es (path ++ name) = (sub.names, none) ∧
      Describes es (path ++ name) sub ∧ Describes es path rest
  | path, .failing name err rest =>
    HasSuffix name sep = true ∧ (es (path ++ name)).2 = some err ∧ Describes es path rest

/-- A whole store: the root listing succeeds with a hierarchy, or it fails,
returning some entries together with its error. -/
inductive Hierarchy (E : Type) where
  | listed (root : Listing E) : Hierarchy E
  | unlisted (entries : List GoString) (err : E) : Hierarchy E

/-- The lister `es` describes the store `h`, from the root path `"/"`. -/
def DescribesStore {E : Type} (es : Lister E) : Hierarchy E → Prop
  | .listed root => es sep = (root.names, none) ∧ Describes es sep root
  | .unlisted entries err => es sep = (entries, some err)

/-- No listing of the hierarchy fails. -/
def Listing.allSucceed {E : Type} : Listing E → Bool
  | .nil => true
  | .leaf _ rest => rest.allSucceed
  | .folder _ sub rest => sub.allSucceed && rest.allSucceed
  | .failing _ _ _ => false

/-- The entries of a hierarchy in depth-first pre-order, each as the pair of
the path it was listed under and its name: an entry, then everything below it
when it is a folder, then its next sibling. -/
def Listing.entries {E : Type} : GoString → Listing E → List (GoString × GoString)
  | _, .nil => []
  | path, .leaf name rest => (path, name) :: rest.entries path
  | path, .folder name sub rest =>
    (path, name) :: (sub.entries (path ++ name) ++ rest.entries path)
  | path, .failing name _ rest => (path, name) :: rest.entries path

/-- The match test of the search on an entry name. -/
def entryMatches (keyword : GoString) (entry : GoString × GoString) : Bool :=
  Contains (Trim entry.2 sep) keyword

/-- The full path of an entry: the path it was listed under followed by its name. -/
def entryPath (entry : GoString × GoString) : GoString :=
  entry.1 ++ entry.2

/-- The full paths of the matching entries of a hierarchy, in depth-first pre-order. -/
def Listing.matchingPaths {E : Type} (keyword path : GoString) (t : Listing E) :
    List GoString :=
  ((t.entries path).filter (entryMatches keyword)).map entryPath

/-- The error of the first failing listing of a hierarchy in depth-first pre-order. -/
def Listing.firstFailure {E : Type} : Listing E → Option E
  | .nil => none
  | .leaf _ rest => rest.firstFailure
  | .folder _ sub rest =>
    match sub.firstFailure with
    | some e => some e
    | none => rest.firstFailure
  | .failing _ err _ => some err

/-- The error of the first failing listing of a store, the root listing coming first. -/
def Hierarchy.firstFailure {E : Type} : Hierarchy E → Option E
  | .listed root => root.firstFailure
  | .unlisted _ err => some err

/-- The run of `recursiveLookup` over a hierarchy, read off the tree. -/
def Listing.walk {E : Type} (kw : GoString) : GoString → Listing E → LookupResult E
  | _, .nil => ⟨[], none, []⟩
  | path, .leaf name rest => (rest.walk kw path).shift (ownMatch kw path name) []
  | path, .folder name sub rest =>
    match (sub.walk kw (path ++ name)).err with
    | some e =>
      ⟨ownMatch kw path name, some e, (path ++ name) :: (sub.walk kw (path ++ name)).calls⟩
    | none =>
      (rest.walk kw path).shift (ownMatch kw path name ++ (sub.walk kw (path ++ name)).keys)
        ((path ++ name) :: (sub.walk kw (path ++ name)).calls)
  | path, .failing name err _ => ⟨ownMatch kw path name, some err, [path ++ name]⟩

/-- The hierarchy of the store `storeABFoo`: folder `a/`, in it folder `b/`, in it leaf `foo`. -/
def treeABFoo : Listing String :=
  .folder "a/".toList (.folder "b/".toList (.leaf "foo".toList .nil) .nil) .nil

/-- A store whose folder `a/` lists fine and whose folder `c/`, listed empty
before it, is followed by the failing folder `b/`. -/
def storeFailing : Lister String := fun path =>
  if path = "/".toList then (["c/".toList, "a/".toList, "z".toList], none)
  else if path = "/a/".toList then (["foo".toList, "b/".toList], none)
  else if path = "/a/b/".toList then ([], some "sealed")
  else ([], none)

/-- The hierarchy of `storeFailing`. -/
def treeFailing : Listing String :=
  .folder "c/".toList .nil
    (.folder "a/".toList (.leaf "foo".toList (.failing "b/".toList "sealed" .nil))
      (.leaf "z".toList .nil))

/-- The store of the example: the root lists `a/`, `/a/` lists `foo` and
`b/`, and the listing of `/a/b/` fails. -/
def storeNested : Lister String := fun path =>
  if path = "/".toList then (["a/".toList], none)
  else if path = "/a/".toList then (["foo".toList, "b/".toList], none)
  else if path = "/a/b/".toList then ([], some "sealed")
  else ([], none)

/-- A store whose root listing fails while returning the entry `x`. -/
def storeRootFails : Lister String := fun path =>
  if path = "/".toList then (["x".toList], some "sealed") else ([], none)

/-- A store whose root listing fails without entries; its folder `foo/` would list fine. -/
def storeRootSealed : Lister String := fun path =>
  if path = "/".toList then ([], some "sealed")
  else if path = "/foo/".toList then (["foo".toList], none)
  else ([], none)

/-! ## Notions of the specification -/

/-- The match test as the specification words it: strip the trailing
separators of the entry, then test whether the keyword occurs in what is left. -/
def specifiedMatch (entry keyword : GoString) : Bool :=
  Contains (TrimRight entry sep) keyword

/-- The key `k` stems from a listing call of the run: it is the path of a
call that succeeded followed by a matching entry which that call returned. -/
def FromCall {E : Type} (es : Lister E) (kw : GoString) (calls : List GoString)
    (k : GoString) : Prop :=
  ∃ p e, k = p ++ e ∧ p ∈ calls ∧ (es p).2 = none ∧ e ∈ (es p).1 ∧
    Contains (Trim e sep) kw = true

/-- The last path segment of a path: the text after its last separator, a
trailing separator being left aside first. -/
def lastSegment (p : GoString) : GoString :=
  let q := if HasSuffix p sep then p.dropLast else p
  (q.reverse.takeWhile (fun c => c != '/')).reverse

/-- An entry is a single path segment: no separator but possibly its last character. -/
def SingleSegment (entry : GoString) : Prop :=
  '/' ∉ entry.dropLast

/-- The lister `es` with the listing of `p` replaced by a successful empty listing. -/
def emptyAt {E : Type} (es : Lister E) (p : GoString) : Lister E := fun q =>
  if q = p then ([], none) else es q

/-- What a run shows besides its keys: the error and the listing calls made. -/
def LookupResult.trace {E : Type} (r : LookupResult E) : Option E × List GoString :=
  (r.err, r.calls)

/-- The folder entries of a hierarchy in depth-first pre-order, each as its
full path with the mark of a failing listing; leaves have no part in it. -/
def Listing.folderPaths {E : Type} : GoString → Listing E → List (GoString × Bool)
  | _, .nil => []
  | path, .leaf _ rest => rest.folderPaths path
  | path, .folder name sub rest =>
    (path ++ name, false) :: (sub.folderPaths (path ++ name) ++ rest.folderPaths path)
  | path, .failing name _ rest => (path ++ name, true) :: rest.folderPaths path

/-- A sequence of marked paths cut right after its first failing one. -/
def throughFirstFailure : List (GoString × Bool) → List GoString
  | [] => []
  | (p, true) :: _ => [p]
  | (p, false) :: rest => p :: throughFirstFailure rest

/-- The listing calls expected of one search of a store: the root, then the
folder entries in depth-first pre-order, cut right after the first failing call. -/
def Hierarchy.expectedCalls {E : Type} : Hierarchy E → List GoString
  | .listed root => sep :: throughFirstFailure (root.folderPaths sep)
  | .unlisted _ _ => [sep]

/-- The folder-nesting relation of a lister: `q` is a folder entry of the
successful listing of `p`. -/
def FolderOf {E : Type} (es : Lister E) (q p : GoString) : Prop :=
  (es p).2 = none ∧ ∃ key ∈ (es p).1, HasSuffix key sep = true ∧ q = p ++ key

/-- The entries of a hierarchy that a traversal in depth-first pre-order
reaches before the first failing listing answers: every entry up to the
failing folder entry, that entry included; nothing below it and nothing that
comes after it.  Without a failing listing these are all the entries. -/
def Listing.visited {E : Type} : GoString → Listing E → List (GoString × GoString)
  | _, .nil => []
  | path, .leaf name rest => (path, name) :: rest.visited path
  | path, .folder name sub rest =>
    (path, name) :: (sub.visited (path ++ name) ++
      (match sub.firstFailure with
       | none => rest.visited path
       | some _ => []))
  | path, .failing name _ _ => [(path, name)]

/-- The full paths of the matching entries reached before the first failing
listing, in depth-first pre-order. -/
def Listing.visitedMatchingPaths {E : Type} (keyword path : GoString) (t : Listing E) :
    List GoString :=
  ((t.visited path).filter (entryMatches keyword)).map entryPath

/-! # Properties

## The loop and its accumulators -/

theorem ite_append_ownMatch (secretName path key : GoString) (acc : List GoString) :
    (if Contains (Trim key sep) secretName = true then acc ++ [path ++ key] else acc)
      = acc ++ ownMatch secretName path key := by
  unfold ownMatch
  split <;> simp

theorem loop_shift {E : Type} (es : Lister E) (kw : GoString) :
    ∀ (fuel : Nat) (path : GoString) (acc calls keys : List GoString),
      recursiveLookupLoop es kw fuel path acc calls keys
        = (recursiveLookup es kw fuel path keys).map (LookupResult.shift acc calls) := by
  intro fuel
  induction fuel with
  | zero => intro path acc calls keys; simp [recursiveLookup, recursiveLookupLoop]
  | succ n ih =>
    intro path acc calls keys
    cases keys with
    | nil => simp [recursiveLookup, recursiveLookupLoop, LookupResult.shift]
    | cons key keys =>
      simp only [recursiveLookup, recursiveLookupLoop, ite_append_ownMatch]
      by_cases hs : HasSuffix key sep = true
      · simp only [hs, if_true]
        rcases hes : es (path ++ key) with ⟨sub, _ | e⟩
        · simp only []
          rcases hsub : recursiveLookupLoop es kw n (path ++ key) [] [] sub with _ | s
          · simp
          · simp only []
            rcases herr : s.err with _ | e
            · simp only []
              rw [ih path (acc ++ ownMatch kw path key ++ s.keys),
                ih path ([] ++ ownMatch kw path key ++ s.keys), Option.map_map]
              congr 1; funext x; simp [LookupResult.shift]
            · simp [LookupResult.shift]
        · simp [LookupResult.shift]
      · simp only [hs, Bool.false_eq_true, if_false]
        rw [ih path (acc ++ ownMatch kw path key), ih path ([] ++ ownMatch kw path key),
          Option.map_map]
        congr 1; funext x; simp [LookupResult.shift]

/-! ## One step of `recursiveLookup`, case by case -/

theorem recursiveLookup_zero {E : Type} (es : Lister E) (kw path : GoString)
    (keys : List GoString) : recursiveLookup es kw 0 path keys = none := by
  simp [recursiveLookup, recursiveLookupLoop]

theorem recursiveLookup_nil {E : Type} (es : Lister E) (kw path : GoString) (n : Nat) :
    recursiveLookup es kw (n + 1) path [] = some ⟨[], none, []⟩ := by
  simp [recursiveLookup, recursiveLookupLoop]

/-- A leaf entry: matched, then the loop goes on. -/
theorem recursiveLookup_leaf {E : Type} (es : Lister E) (kw path key : GoString)
    (keys : List GoString) (n : Nat) (hs : HasSuffix key sep = false) :
    recursiveLookup es kw (n + 1) path (key :: keys)
      = (recursiveLookup es kw n path keys).map
          (LookupResult.shift (ownMatch kw path key) []) := by
  simp only [recursiveLookup, recursiveLookupLoop, ite_append_ownMatch, hs,
    Bool.false_eq_true, if_false]
  rw [loop_shift]
  simp [recursiveLookup]

/-- A folder entry whose listing fails: the loop returns at once. -/
theorem recursiveLookup_listFails {E : Type} (es : Lister E) (kw path key : GoString)
    (keys : List GoString) (n : Nat) (e : E) (hs : HasSuffix key sep = true)
    (he : (es (path ++ key)).2 = some e) :
    recursiveLookup es kw (n + 1) path (key :: keys)
      = some ⟨ownMatch kw path key, some e, [path ++ key]⟩ := by
  simp only [recursiveLookup, recursiveLookupLoop, ite_append_ownMatch, hs, if_true]
  rcases hes : es (path ++ key) with ⟨sub, _ | e2⟩
  · rw [hes] at he; simp at he
  · rw [hes] at he; simp at he; simp [he]

/-- A folder entry whose nested lookup runs out of budget. -/
theorem recursiveLookup_subNone {E : Type} (es : Lister E) (kw path key : GoString)
    (keys sub : List GoString) (n : Nat) (hs : HasSuffix key sep = true)
    (hes : es (path ++ key) = (sub, none))
    (hsub : recursiveLookup es kw n (path ++ key) sub = none) :
    recursiveLookup es kw (n + 1) path (key :: keys) = none := by
  simp only [recursiveLookup] at hsub
  simp only [recursiveLookup, recursiveLookupLoop, ite_append_ownMatch, hs, if_true, hes, hsub]

/-- A folder entry whose nested lookup returns an error: the loop returns its
own accumulator with that error. -/
theorem recursiveLookup_subFails {E : Type} (es : Lister E) (kw path key : GoString)
    (keys sub : List GoString) (n : Nat) (s : LookupResult E) (e : E)
    (hs : HasSuffix key sep = true) (hes : es (path ++ key) = (sub, none))
    (hsub : recursiveLookup es kw n (path ++ key) sub = some s) (herr : s.err = some e) :
    recursiveLookup es kw (n + 1) path (key :: keys)
      = some ⟨ownMatch kw path key, some e, (path ++ key) :: s.calls⟩ := by
  simp only [recursiveLookup] at hsub
  simp only [recursiveLookup, recursiveLookupLoop, ite_append_ownMatch, hs, if_true, hes, hsub,
    herr]
  simp

/-- A folder entry whose nested lookup succeeds: its keys are appended and the loop goes on. -/
theorem recursiveLookup_subOk {E : Type} (es : Lister E) (kw path key : GoString)
    (keys sub : List GoString) (n : Nat) (s : LookupResult E)
    (hs : HasSuffix key sep = true) (hes : es (path ++ key) = (sub, none))
    (hsub : recursiveLookup es kw n (path ++ key) sub = some s) (herr : s.err = none) :
    recursiveLookup es kw (n + 1) path (key :: keys)
      = (recursiveLookup es kw n path keys).map
          (LookupResult.shift (ownMatch kw path key ++ s.keys) ((path ++ key) :: s.calls)) := by
  simp only [recursiveLookup] at hsub
  simp only [recursiveLookup, recursiveLookupLoop, ite_append_ownMatch, hs, if_true, hes, hsub,
    herr]
  rw [loop_shift]
  simp [recursiveLookup]

/-- More budget does not change a returned value. -/
theorem recursiveLookup_succ {E : Type} (es : Lister E) (kw : GoString) :
    ∀ (n : Nat) (path : GoString) (keys : List GoString) (r : LookupResult E),
      recursiveLookup es kw n path keys = some r →
      recursiveLookup es kw (n + 1) path keys = some r := by
  intro n
  induction n with
  | zero => intro path keys r h; simp [recursiveLookup_zero] at h
  | succ n ih =>
    intro path keys r h
    cases keys with
    | nil => rw [recursiveLookup_nil] at h ⊢; exact h
    | cons key keys =>
      by_cases hs : HasSuffix key sep = true
      · rcases hes : es (path ++ key) with ⟨sub, _ | e⟩
        · rcases hsub : recursiveLookup es kw n (path ++ key) sub with _ | s
          · rw [recursiveLookup_subNone es kw path key keys sub n hs hes hsub] at h
            simp at h
          · have hsub2 := ih _ _ _ hsub
            rcases herr : s.err with _ | e
            · rw [recursiveLookup_subOk es kw path key keys sub n s hs hes hsub herr] at h
              rw [recursiveLookup_subOk es kw path key keys sub (n + 1) s hs hes hsub2 herr]
              rcases hrest : recursiveLookup es kw n path keys with _ | t
              · rw [hrest] at h; simp at h
              · rw [ih _ _ _ hrest]; rw [hrest] at h; exact h
            · rw [recursiveLookup_subFails es kw path key keys sub n s e hs hes hsub herr] at h
              rw [recursiveLookup_subFails es kw path key keys sub (n + 1) s e hs hes hsub2 herr]
              exact h
        · have he : (es (path ++ key)).2 = some e := by rw [hes]
          rw [recursiveLookup_listFails es kw path key keys n e hs he] at h
          rw [recursiveLookup_listFails es kw path key keys (n + 1) e hs he]
          exact h
      · have hs2 : HasSuffix key sep = false := by simpa using hs
        rw [recursiveLookup_leaf es kw path key keys n hs2] at h
        rw [recursiveLookup_leaf es kw path key keys (n + 1) hs2]
        rcases hrest : recursiveLookup es kw n path keys with _ | t
        · rw [hrest] at h; simp at h
        · rw [ih _ _ _ hrest]; rw [hrest] at h; exact h

theorem recursiveLookup_mono {E : Type} (es : Lister E) (kw path : GoString)
    (keys : List GoString) (r : LookupResult E) (n m : Nat) (hnm : n ≤ m)
    (h : recursiveLookup es kw n path keys = some r) :
    recursiveLookup es kw m path keys = some r := by
  induction hnm with
  | refl => exact h
  | step _ ih => exact recursiveLookup_succ es kw _ path keys r ih

/-! ## The search on a finite hierarchy -/

/-- On a hierarchy described by the lister, a budget above the number of
entries makes `recursiveLookup` return the run read off the tree. -/
theorem recursiveLookup_of_describes {E : Type} (es : Lister E) (kw : GoString) :
    ∀ (t : Listing E) (path : GoString) (fuel : Nat),
      Describes es path t → t.size < fuel →
      recursiveLookup es kw fuel path t.names = some (t.walk kw path) := by
  intro t
  induction t with
  | nil =>
    intro path fuel _ hf
    obtain ⟨n, rfl⟩ : ∃ n, fuel = n + 1 := ⟨fuel - 1, by omega⟩
    simp [Listing.names, Listing.walk, recursiveLookup_nil]
  | leaf name rest ih =>
    intro path fuel hd hf
    obtain ⟨n, rfl⟩ : ∃ n, fuel = n + 1 := ⟨fuel - 1, by omega⟩
    simp only [Listing.size] at hf
    obtain ⟨hs, hrest⟩ := hd
    simp only [Listing.names, Listing.walk]
    rw [recursiveLookup_leaf es kw path name _ n hs, ih path n hrest (by omega)]
    rfl
  | folder name sub rest ihs ihr =>
    intro path fuel hd hf
    obtain ⟨n, rfl⟩ : ∃ n, fuel = n + 1 := ⟨fuel - 1, by omega⟩
    simp only [Listing.size] at hf
    obtain ⟨hs, hes, hsub, hrest⟩ := hd
    have h1 := ihs (path ++ name) n hsub (by omega)
    simp only [Listing.names, Listing.walk]
    rcases herr : (sub.walk kw (path ++ name)).err with _ | e
    · rw [recursiveLookup_subOk es kw path name _ _ n _ hs hes h1 herr,
        ihr path n hrest (by omega)]
      rfl
    · rw [recursiveLookup_subFails es kw path name _ _ n _ e hs hes h1 herr]
  | failing name err rest _ =>
    intro path fuel hd hf
    obtain ⟨n, rfl⟩ : ∃ n, fuel = n + 1 := ⟨fuel - 1, by omega⟩
    obtain ⟨hs, hes, _⟩ := hd
    simp only [Listing.names, Listing.walk]
    rw [recursiveLookup_listFails es kw path name _ n err hs hes]

/-- The search of a store whose root listing succeeds, with enough budget. -/
theorem search_of_describes {E : Type} (es : Lister E) (kw : GoString) (t : Listing E)
    (fuel : Nat) (hd : DescribesStore es (.listed t)) (hf : t.size < fuel) :
    Search es kw fuel
      = some ⟨(t.walk kw sep).keys, (t.walk kw sep).err, sep :: (t.walk kw sep).calls⟩ := by
  obtain ⟨hroot, hdesc⟩ := hd
  simp only [Search, hroot, recursiveLookup_of_describes es kw t sep fuel hdesc hf]

theorem walk_err {E : Type} (kw : GoString) :
    ∀ (t : Listing E) (path : GoString), (t.walk kw path).err = t.firstFailure := by
  intro t
  induction t with
  | nil => intro path; rfl
  | leaf name rest ih => intro path; simp [Listing.walk, Listing.firstFailure, LookupResult.shift, ih]
  | folder name sub rest ihs ihr =>
    intro path
    simp only [Listing.walk, Listing.firstFailure]
    rw [← ihs (path ++ name)]
    rcases (sub.walk kw (path ++ name)).err with _ | e
    · simp [LookupResult.shift, ihr]
    · rfl
  | failing name err rest _ => intro path; rfl

theorem firstFailure_of_allSucceed {E : Type} :
    ∀ (t : Listing E), t.allSucceed = true → t.firstFailure = none := by
  intro t
  induction t with
  | nil => intro _; rfl
  | leaf name rest ih => intro h; exact ih h
  | folder name sub rest ihs ihr =>
    intro h
    simp only [Listing.allSucceed, Bool.and_eq_true] at h
    simp [Listing.firstFailure, ihs h.1, ihr h.2]
  | failing name err rest _ => intro h; simp [Listing.allSucceed] at h

theorem ownMatch_eq_filter (kw path name : GoString) :
    ownMatch kw path name = (([(path, name)]).filter (entryMatches kw)).map entryPath := by
  unfold ownMatch entryMatches
  by_cases h : Contains (Trim name sep) kw = true
  · simp [h, entryPath, List.filter]
  · simp [h, List.filter]

theorem walk_keys_of_allSucceed {E : Type} (kw : GoString) :
    ∀ (t : Listing E) (path : GoString), t.allSucceed = true →
      (t.walk kw path).keys = t.matchingPaths kw path := by
  intro t
  induction t with
  | nil => intro path _; rfl
  | leaf name rest ih =>
    intro path h
    have h1 := ih path h
    simp only [Listing.matchingPaths] at h1
    simp only [Listing.walk, LookupResult.shift, Listing.matchingPaths, Listing.entries, h1,
      ownMatch_eq_filter]
    rw [← List.map_append, ← List.filter_append]
    rfl
  | folder name sub rest ihs ihr =>
    intro path h
    simp only [Listing.allSucceed, Bool.and_eq_true] at h
    have hs := ihs (path ++ name) h.1
    have hr := ihr path h.2
    have he : (sub.walk kw (path ++ name)).err = none := by
      rw [walk_err, firstFailure_of_allSucceed sub h.1]
    simp only [Listing.matchingPaths] at hs hr
    simp only [Listing.walk, he, LookupResult.shift, Listing.matchingPaths, Listing.entries,
      hs, hr, ownMatch_eq_filter]
    rw [← List.map_append, ← List.map_append, ← List.filter_append, ← List.filter_append]
    rfl
  | failing name err rest _ => intro path h; simp [Listing.allSucceed] at h

theorem describes_storeABFoo : DescribesStore storeABFoo (.listed treeABFoo) := by
  refine ⟨rfl, rfl, rfl, ⟨rfl, rfl, ⟨rfl, trivial⟩, trivial⟩, trivial⟩

/-! ## Depth-first order of the results -/

/-- C1: on a finite hierarchy whose listings all succeed, `Search` returns, for
every budget from some bound on, no error and exactly the full paths of the
matching entries in depth-first pre-order (`Listing.matchingPaths`: an entry,
then the matches below it, then its next sibling; no sorting). -/
theorem C1_search_returns_preorder_matches {E : Type} (es : Lister E) (kw : GoString)
    (t : Listing E) (hd : DescribesStore es (.listed t)) (hok : t.allSucceed = true) :
    ∃ N, ∀ fuel, N ≤ fuel →
      ∃ r, Search es kw fuel = some r ∧ r.err = none ∧ r.keys = t.matchingPaths kw sep := by
  refine ⟨t.size + 1, fun fuel hf => ⟨_, search_of_describes es kw t fuel hd (by omega), ?_, ?_⟩⟩
  · simp only [walk_err, firstFailure_of_allSucceed t hok]
  · exact walk_keys_of_allSucceed kw t sep hok

/-- C1, on the store holding only `a/b/foo`: `Search("foo")` is `["/a/b/foo"]`. -/
theorem C1_witness_foo :
    DescribesStore storeABFoo (.listed treeABFoo) ∧ treeABFoo.allSucceed = true ∧
    ∃ N, ∀ fuel, N ≤ fuel →
      ∃ r, Search storeABFoo "foo".toList fuel = some r ∧ r.err = none ∧
        r.keys = ["/a/b/foo".toList] :=
  ⟨describes_storeABFoo, rfl,
    C1_search_returns_preorder_matches storeABFoo "foo".toList treeABFoo
      describes_storeABFoo rfl⟩

/-- C5: on a finite hierarchy whose listings all succeed and none of whose
entries matches the keyword (an empty store included), `Search` returns, for
every budget from some bound on, no keys and no error. -/
theorem C5_search_no_match_is_empty {E : Type} (es : Lister E) (kw : GoString)
    (t : Listing E) (hd : DescribesStore es (.listed t)) (hok : t.allSucceed = true)
    (hno : ∀ e ∈ t.entries sep, entryMatches kw e = false) :
    ∃ N, ∀ fuel, N ≤ fuel →
      ∃ r, Search es kw fuel = some r ∧ r.keys = [] ∧ r.err = none := by
  refine ⟨t.size + 1, fun fuel hf => ⟨_, search_of_describes es kw t fuel hd (by omega), ?_, ?_⟩⟩
  · simp only [walk_keys_of_allSucceed kw t sep hok, Listing.matchingPaths]
    rw [List.filter_eq_nil_iff.mpr (fun e he => by simp [hno e he])]
    rfl
  · simp only [walk_err, firstFailure_of_allSucceed t hok]

/-- C5, on the store holding only `a/b/foo`: `Search("fooa")` has no keys and no error. -/
theorem C5_witness_fooa :
    DescribesStore storeABFoo (.listed treeABFoo) ∧ treeABFoo.allSucceed = true ∧
    (∀ e ∈ treeABFoo.entries sep, entryMatches "fooa".toList e = false) ∧
    ∃ N, ∀ fuel, N ≤ fuel →
      ∃ r, Search storeABFoo "fooa".toList fuel = some r ∧ r.keys = [] ∧ r.err = none :=
  ⟨describes_storeABFoo, rfl, by decide,
    C5_search_no_match_is_empty storeABFoo "fooa".toList treeABFoo
      describes_storeABFoo rfl (by decide)⟩

/-! ## Errors -/

theorem walk_findSome {E : Type} (es : Lister E) (kw : GoString) :
    ∀ (t : Listing E) (path : GoString), Describes es path t →
      (t.walk kw path).calls.findSome? (fun p => (es p).2) = t.firstFailure := by
  intro t
  induction t with
  | nil => intro path _; rfl
  | leaf name rest ih =>
    intro path hd
    simpa [Listing.walk, LookupResult.shift, Listing.firstFailure] using ih path hd.2
  | folder name sub rest ihs ihr =>
    intro path hd
    obtain ⟨_, hes, hsub, hrest⟩ := hd
    have h1 := ihs (path ++ name) hsub
    have h2 := ihr path hrest
    have h3 := walk_err kw sub (path ++ name)
    simp only [Listing.walk, Listing.firstFailure]
    rcases hf : sub.firstFailure with _ | e
    · rw [hf] at h1 h3
      simp [h3, LookupResult.shift, List.findSome?_cons, hes, List.findSome?_append, h1, h2]
    · rw [hf] at h1 h3
      simp [h3, List.findSome?_cons, hes, h1]
  | failing name err rest _ =>
    intro path hd
    simp [Listing.walk, Listing.firstFailure, List.findSome?_cons, hd.2.1]

/-- C4: on a finite hierarchy `Search` returns, for every budget from some
bound on, and its error is the error of the first failing listing in
depth-first pre-order (root first), unchanged: it is the first error among the
listing calls made, there is an error exactly when one of the calls made
fails, and a listing with zero entries counts as a success. -/
theorem C4_search_error_is_first_failure {E : Type} (es : Lister E) (kw : GoString)
    (h : Hierarchy E) (hd : DescribesStore es h) :
    ∃ N, ∀ fuel, N ≤ fuel →
      ∃ r, Search es kw fuel = some r ∧ r.err = h.firstFailure ∧
        r.err = r.calls.findSome? (fun p => (es p).2) ∧
        (r.err ≠ none ↔ ∃ p ∈ r.calls, (es p).2 ≠ none) := by
  have key : ∀ r : LookupResult E, r.err = r.calls.findSome? (fun p => (es p).2) →
      (r.err ≠ none ↔ ∃ p ∈ r.calls, (es p).2 ≠ none) := by
    intro r hr
    rw [hr, ne_eq, List.findSome?_eq_none_iff]
    simp
  cases h with
  | listed t =>
    refine ⟨t.size + 1, fun fuel hf =>
      ⟨_, search_of_describes es kw t fuel hd (by omega), ?_, ?_, ?_⟩⟩
    · exact walk_err kw t sep
    · simp [List.findSome?_cons, hd.1, walk_findSome es kw t sep hd.2, walk_err]
    · apply key
      simp [List.findSome?_cons, hd.1, walk_findSome es kw t sep hd.2, walk_err]
  | unlisted entries err =>
    have hroot : es sep = (entries, some err) := hd
    refine ⟨0, fun fuel _ => ⟨⟨entries, some err, [sep]⟩, ?_, rfl, ?_, ?_⟩⟩
    · simp only [Search, hroot]
    · simp [List.findSome?_cons, hroot]
    · apply key
      simp [List.findSome?_cons, hroot]

theorem describes_storeFailing : DescribesStore storeFailing (.listed treeFailing) := by
  refine ⟨rfl, ⟨rfl, rfl, trivial, rfl, rfl, ⟨rfl, rfl, rfl, trivial⟩, rfl, trivial⟩⟩

/-- C4, on a store where the empty folder `c/` precedes the failing listing of
`/a/b/`: the error of `Search` is that of `/a/b/`. -/
theorem C4_witness_failing :
    DescribesStore storeFailing (.listed treeFailing) ∧
    ∃ N, ∀ fuel, N ≤ fuel →
      ∃ r, Search storeFailing "foo".toList fuel = some r ∧ r.err = some "sealed" ∧
        r.err = r.calls.findSome? (fun p => (storeFailing p).2) ∧
        (r.err ≠ none ↔ ∃ p ∈ r.calls, (storeFailing p).2 ≠ none) :=
  ⟨describes_storeFailing,
    C4_search_error_is_first_failure storeFailing "foo".toList (.listed treeFailing)
      describes_storeFailing⟩

/-! ## The empty keyword -/

theorem contains_nil (s : GoString) : Contains s [] = true := by
  cases s <;> simp [Contains, HasPrefix]

theorem matchingPaths_nil_keyword {E : Type} (t : Listing E) (path : GoString) :
    t.matchingPaths [] path = (t.entries path).map entryPath := by
  unfold Listing.matchingPaths
  rw [List.filter_eq_self.mpr (fun e _ => by simp [entryMatches, contains_nil])]

theorem length_entries {E : Type} :
    ∀ (t : Listing E) (path : GoString), (t.entries path).length = t.size := by
  intro t
  induction t with
  | nil => intro path; rfl
  | leaf name rest ih => intro path; simp [Listing.entries, Listing.size, ih]; omega
  | folder name sub rest ihs ihr =>
    intro path; simp [Listing.entries, Listing.size, ihs, ihr]; omega
  | failing name err rest ih => intro path; simp [Listing.entries, Listing.size, ih]; omega

theorem names_mem_entries {E : Type} :
    ∀ (t : Listing E) (path e : GoString), e ∈ t.names → (path, e) ∈ t.entries path := by
  intro t
  induction t with
  | nil => intro path e h; simp [Listing.names] at h
  | leaf name rest ih =>
    intro path e h
    simp only [Listing.names, List.mem_cons] at h
    rcases h with h | h
    · simp [Listing.entries, h]
    · simp [Listing.entries, ih path e h]
  | folder name sub rest _ ihr =>
    intro path e h
    simp only [Listing.names, List.mem_cons] at h
    rcases h with h | h
    · simp [Listing.entries, h]
    · simp [Listing.entries, ihr path e h]
  | failing name err rest ih =>
    intro path e h
    simp only [Listing.names, List.mem_cons] at h
    rcases h with h | h
    · simp [Listing.entries, h]
    · simp [Listing.entries, ih path e h]

/-- Without failure, the entries returned by the calls of a run and those of
the top listing are, in number, the entries of the hierarchy. -/
theorem walk_calls_count {E : Type} (es : Lister E) (kw : GoString) :
    ∀ (t : Listing E) (path : GoString), Describes es path t → t.allSucceed = true →
      (((t.walk kw path).calls.map (fun p => (es p).1.length)).sum + t.names.length
        = t.size) := by
  intro t
  induction t with
  | nil => intro path _ _; rfl
  | leaf name rest ih =>
    intro path hd hok
    have := ih path hd.2 hok
    simp only [Listing.walk, LookupResult.shift, Listing.names, Listing.size, List.nil_append,
      List.length_cons]
    omega
  | folder name sub rest ihs ihr =>
    intro path hd hok
    obtain ⟨_, hes, hsub, hrest⟩ := hd
    simp only [Listing.allSucceed, Bool.and_eq_true] at hok
    have h1 := ihs (path ++ name) hsub hok.1
    have h2 := ihr path hrest hok.2
    have he : (sub.walk kw (path ++ name)).err = none := by
      rw [walk_err, firstFailure_of_allSucceed sub hok.1]
    simp only [Listing.walk, he, LookupResult.shift, Listing.names, Listing.size,
      List.nil_append, List.length_cons, List.map_cons, List.map_append, List.sum_cons,
      List.sum_append, hes]
    omega
  | failing name err rest _ => intro path _ hok; simp [Listing.allSucceed] at hok

/-- Without failure, every entry returned by a call of a run is an entry of the hierarchy. -/
theorem walk_calls_mem {E : Type} (es : Lister E) (kw : GoString) :
    ∀ (t : Listing E) (path : GoString), Describes es path t → t.allSucceed = true →
      ∀ p ∈ (t.walk kw path).calls, ∀ e ∈ (es p).1, (p, e) ∈ t.entries path := by
  intro t
  induction t with
  | nil => intro path _ _ p hp; simp [Listing.walk] at hp
  | leaf name rest ih =>
    intro path hd hok p hp e he
    simp only [Listing.walk, LookupResult.shift, List.nil_append] at hp
    simp [Listing.entries, ih path hd.2 hok p hp e he]
  | folder name sub rest ihs ihr =>
    intro path hd hok p hp e he
    obtain ⟨_, hes, hsub, hrest⟩ := hd
    simp only [Listing.allSucceed, Bool.and_eq_true] at hok
    have herr : (sub.walk kw (path ++ name)).err = none := by
      rw [walk_err, firstFailure_of_allSucceed sub hok.1]
    simp only [Listing.walk, herr, LookupResult.shift, List.nil_append, List.mem_cons,
      List.mem_append] at hp
    simp only [Listing.entries, List.mem_cons, List.mem_append]
    rcases hp with (hp | hp) | hp
    · subst hp
      rw [hes] at he
      exact Or.inr (Or.inl (names_mem_entries sub _ e he))
    · exact Or.inr (Or.inl (ihs _ hsub hok.1 p hp e he))
    · exact Or.inr (Or.inr (ihr _ hrest hok.2 p hp e he))
  | failing name err rest _ => intro path _ hok; simp [Listing.allSucceed] at hok

/-- C7: on a finite hierarchy whose listings all succeed, `Search` with the
empty keyword returns, for every budget from some bound on, no error and the
full path of every entry of the hierarchy in pre-order, one element per
entry: as many keys as the listing calls made returned entries, and the full
path of each entry returned by a call made is among the keys. -/
theorem C7_empty_keyword_returns_every_entry {E : Type} (es : Lister E) (t : Listing E)
    (hd : DescribesStore es (.listed t)) (hok : t.allSucceed = true) :
    ∃ N, ∀ fuel, N ≤ fuel →
      ∃ r, Search es [] fuel = some r ∧ r.err = none ∧
        r.keys = (t.entries sep).map entryPath ∧
        r.keys.length = (r.calls.map (fun p => (es p).1.length)).sum ∧
        ∀ p ∈ r.calls, ∀ e ∈ (es p).1, p ++ e ∈ r.keys := by
  have hkeys : (t.walk [] sep).keys = (t.entries sep).map entryPath := by
    rw [walk_keys_of_allSucceed [] t sep hok, matchingPaths_nil_keyword]
  refine ⟨t.size + 1, fun fuel hf =>
    ⟨_, search_of_describes es [] t fuel hd (by omega), ?_, hkeys, ?_, ?_⟩⟩
  · simp only [walk_err, firstFailure_of_allSucceed t hok]
  · have hc := walk_calls_count es [] t sep hd.2 hok
    simp only [hkeys, List.length_map, length_entries, List.map_cons, List.sum_cons, hd.1]
    omega
  · intro p hp e he
    simp only [hkeys, List.mem_map]
    simp only [List.mem_cons] at hp
    rcases hp with hp | hp
    · subst hp
      rw [hd.1] at he
      exact ⟨(sep, e), names_mem_entries t sep e he, rfl⟩
    · exact ⟨(p, e), walk_calls_mem es [] t sep hd.2 hok p hp e he, rfl⟩

/-- C7, on the store holding only `a/b/foo`: the empty keyword lists the three entries. -/
theorem C7_witness_abfoo :
    DescribesStore storeABFoo (.listed treeABFoo) ∧ treeABFoo.allSucceed = true ∧
    ∃ N, ∀ fuel, N ≤ fuel →
      ∃ r, Search storeABFoo [] fuel = some r ∧ r.err = none ∧
        r.keys = ["/a/".toList, "/a/b/".toList, "/a/b/foo".toList] ∧
        r.keys.length = (r.calls.map (fun p => (storeABFoo p).1.length)).sum ∧
        ∀ p ∈ r.calls, ∀ e ∈ (storeABFoo p).1, p ++ e ∈ r.keys :=
  ⟨describes_storeABFoo, rfl,
    C7_empty_keyword_returns_every_entry storeABFoo treeABFoo describes_storeABFoo rfl⟩

/-! ## The match test -/

theorem hasPrefix_cons_of_ne (c k : Char) (s rest : GoString) (h : k ≠ c) :
    HasPrefix (c :: s) (k :: rest) = false := by
  simp [HasPrefix, List.isPrefixOf, h]

/-- Dropping leading characters that the keyword does not start with keeps every occurrence. -/
theorem contains_dropWhile (p : Char → Bool) (kw : GoString)
    (hkw : ∀ k rest, kw = k :: rest → p k = false) :
    ∀ s : GoString, Contains (s.dropWhile p) kw = Contains s kw := by
  intro s
  induction s with
  | nil => rfl
  | cons c s ih =>
    by_cases hc : p c = true
    · rw [List.dropWhile_cons_of_pos hc, ih]
      cases kw with
      | nil => simp [contains_nil]
      | cons k rest =>
        have hk : k ≠ c := by
          intro hkc
          have := hkw k rest rfl
          rw [hkc, hc] at this
          exact Bool.noConfusion this
        simp [Contains, hasPrefix_cons_of_ne c k s rest hk]
    · rw [List.dropWhile_cons_of_neg hc]

/-- C9: for a keyword without leading or trailing separator, the test of
the code, which trims the entry at both ends, and the specified test, which
strips only its trailing separators, give the same answer on every entry. -/
theorem C9_trim_both_ends_refines_trim_right (entry kw : GoString)
    (hlead : HasPrefix kw sep = false) (_htrail : HasSuffix kw sep = false) :
    Contains (Trim entry sep) kw = specifiedMatch entry kw := by
  unfold specifiedMatch Trim TrimLeft
  apply contains_dropWhile
  intro k rest hk
  subst hk
  simp only [HasPrefix, sep, List.isPrefixOf, Bool.and_true] at hlead
  have hne : k ≠ '/' := by
    intro h
    subst h
    simp at hlead
  have hb : (k == '/') = false := by simpa using hne
  simp only [sep, List.elem, hb]

/-- C9, on the entry `//foo/` (leading separators) and the keyword `foo`. -/
theorem C9_witness_leading_separators :
    HasPrefix "foo".toList sep = false ∧ HasSuffix "foo".toList sep = false ∧
    Contains (Trim "//foo/".toList sep) "foo".toList = specifiedMatch "//foo/".toList "foo".toList :=
  ⟨by decide, by decide,
    C9_trim_both_ends_refines_trim_right "//foo/".toList "foo".toList (by decide) (by decide)⟩

/-! ## Partial results on failure -/

theorem search_mono {E : Type} (es : Lister E) (kw : GoString) (r : LookupResult E)
    (n m : Nat) (hnm : n ≤ m) (h : Search es kw n = some r) : Search es kw m = some r := by
  unfold Search at h ⊢
  rcases hroot : es sep with ⟨keys, _ | e⟩
  · rw [hroot] at h
    simp only [] at h ⊢
    rcases hrec : recursiveLookup es kw n sep keys with _ | s
    · rw [hrec] at h; simp at h
    · rw [hrec] at h
      rw [recursiveLookup_mono es kw sep keys s n m hnm hrec]
      exact h
  · rw [hroot] at h
    exact h

/-- C2, the code at the example of the claim: the nested `recursiveLookup`
on `/a/` returns the match `/a/foo` with the error of `/a/b/`, and `Search`
returns that error with no key at all, whatever the budget from 3 on. -/
theorem C2_nested_matches_are_dropped :
    recursiveLookup storeNested "foo".toList 2 "/a/".toList ["foo".toList, "b/".toList]
      = some ⟨["/a/foo".toList], some "sealed", ["/a/b/".toList]⟩ ∧
    ∀ fuel, 3 ≤ fuel →
      Search storeNested "foo".toList fuel
        = some ⟨[], some "sealed", ["/".toList, "/a/".toList, "/a/b/".toList]⟩ :=
  ⟨by decide, fun fuel hf => search_mono storeNested "foo".toList _ 3 fuel hf (by decide)⟩

/-! ## Folder entries -/

theorem hasSuffix_append (path key : GoString) (hs : HasSuffix key sep = true) :
    HasSuffix (path ++ key) sep = true := by
  simp only [HasSuffix, List.isSuffixOf_iff_suffix] at hs ⊢
  exact hs.trans (List.suffix_append path key)

/-- Whatever happens to an entry, its own match opens the keys returned. -/
theorem ownMatch_prefix_keys {E : Type} (es : Lister E) (kw path key : GoString)
    (keys : List GoString) (fuel : Nat) (r : LookupResult E)
    (h : recursiveLookup es kw fuel path (key :: keys) = some r) :
    ownMatch kw path key <+: r.keys := by
  cases fuel with
  | zero => simp [recursiveLookup_zero] at h
  | succ n =>
    by_cases hs : HasSuffix key sep = true
    · rcases hes : es (path ++ key) with ⟨sub, _ | e⟩
      · rcases hsub : recursiveLookup es kw n (path ++ key) sub with _ | s
        · rw [recursiveLookup_subNone es kw path key keys sub n hs hes hsub] at h
          simp at h
        · rcases herr : s.err with _ | e
          · rw [recursiveLookup_subOk es kw path key keys sub n s hs hes hsub herr] at h
            rcases hrest : recursiveLookup es kw n path keys with _ | t
            · rw [hrest] at h; simp at h
            · rw [hrest] at h
              simp only [Option.map_some', Option.some.injEq] at h
              subst h
              simp [LookupResult.shift, List.append_assoc]
          · rw [recursiveLookup_subFails es kw path key keys sub n s e hs hes hsub herr] at h
            simp only [Option.some.injEq] at h
            subst h
            exact List.prefix_rfl
      · have he : (es (path ++ key)).2 = some e := by rw [hes]
        rw [recursiveLookup_listFails es kw path key keys n e hs he] at h
        simp only [Option.some.injEq] at h
        subst h
        exact List.prefix_rfl
    · have hs2 : HasSuffix key sep = false := by simpa using hs
      rw [recursiveLookup_leaf es kw path key keys n hs2] at h
      rcases hrest : recursiveLookup es kw n path keys with _ | t
      · rw [hrest] at h; simp at h
      · rw [hrest] at h
        simp only [Option.map_some', Option.some.injEq] at h
        subst h
        simp [LookupResult.shift]

/-- A folder entry is listed first of all. -/
theorem folder_call_first {E : Type} (es : Lister E) (kw path key : GoString)
    (keys : List GoString) (fuel : Nat) (r : LookupResult E)
    (hs : HasSuffix key sep = true)
    (h : recursiveLookup es kw fuel path (key :: keys) = some r) :
    r.calls.head? = some (path ++ key) := by
  cases fuel with
  | zero => simp [recursiveLookup_zero] at h
  | succ n =>
    rcases hes : es (path ++ key) with ⟨sub, _ | e⟩
    · rcases hsub : recursiveLookup es kw n (path ++ key) sub with _ | s
      · rw [recursiveLookup_subNone es kw path key keys sub n hs hes hsub] at h
        simp at h
      · rcases herr : s.err with _ | e
        · rw [recursiveLookup_subOk es kw path key keys sub n s hs hes hsub herr] at h
          rcases hrest : recursiveLookup es kw n path keys with _ | t
          · rw [hrest] at h; simp at h
          · rw [hrest] at h
            simp only [Option.map_some', Option.some.injEq] at h
            subst h
            simp [LookupResult.shift]
        · rw [recursiveLookup_subFails es kw path key keys sub n s e hs hes hsub herr] at h
          simp only [Option.some.injEq] at h
          subst h
          rfl
    · have he : (es (path ++ key)).2 = some e := by rw [hes]
      rw [recursiveLookup_listFails es kw path key keys n e hs he] at h
      simp only [Option.some.injEq] at h
      subst h
      rfl

/-- C6: for a folder entry whose trimmed name contains the keyword, the full
path of the folder keeps its trailing separator; whenever `recursiveLookup`
returns, that path is the first key and the folder is the first path listed.
And it does return, with every budget from a bound on: with the folder path
as only key and the error when the listing of the folder fails; the same,
after the calls made below, when the lookup below the folder returns an error;
and when the listing and the lookup below succeed, with the folder path, then
the keys found below it by the same lookup (children are reported on their own
match only), then the keys of the remaining siblings. -/
theorem C6_matching_folder_is_reported_and_traversed {E : Type} (es : Lister E)
    (kw path key : GoString) (keys : List GoString)
    (hs : HasSuffix key sep = true) (hm : Contains (Trim key sep) kw = true) :
    HasSuffix (path ++ key) sep = true ∧
    (∀ fuel r, recursiveLookup es kw fuel path (key :: keys) = some r →
      r.keys.head? = some (path ++ key) ∧ r.calls.head? = some (path ++ key)) ∧
    (∀ e, (es (path ++ key)).2 = some e → ∀ fuel, 1 ≤ fuel →
      recursiveLookup es kw fuel path (key :: keys)
        = some ⟨[path ++ key], some e, [path ++ key]⟩) ∧
    (∀ sub n rs e, es (path ++ key) = (sub, none) →
      recursiveLookup es kw n (path ++ key) sub = some rs → rs.err = some e →
      ∀ fuel, n + 1 ≤ fuel →
        recursiveLookup es kw fuel path (key :: keys)
          = some ⟨[path ++ key], some e, (path ++ key) :: rs.calls⟩) ∧
    (∀ sub n m rs rr, es (path ++ key) = (sub, none) →
      recursiveLookup es kw n (path ++ key) sub = some rs → rs.err = none →
      recursiveLookup es kw m path keys = some rr →
      ∃ N, ∀ fuel, N ≤ fuel →
        recursiveLookup es kw fuel path (key :: keys)
          = some ⟨(path ++ key) :: (rs.keys ++ rr.keys), rr.err,
              (path ++ key) :: (rs.calls ++ rr.calls)⟩) := by
  have hown : ownMatch kw path key = [path ++ key] := by simp [ownMatch, hm]
  refine ⟨hasSuffix_append path key hs, ?_, ?_, ?_, ?_⟩
  · intro fuel r h
    refine ⟨?_, folder_call_first es kw path key keys fuel r hs h⟩
    obtain ⟨l, hl⟩ := ownMatch_prefix_keys es kw path key keys fuel r h
    rw [← hl, hown]
    rfl
  · intro e he fuel hf
    refine recursiveLookup_mono es kw path (key :: keys) _ 1 fuel hf ?_
    rw [recursiveLookup_listFails es kw path key keys 0 e hs he, hown]
  · intro sub n rs e hes hsub herr fuel hf
    refine recursiveLookup_mono es kw path (key :: keys) _ (n + 1) fuel hf ?_
    rw [recursiveLookup_subFails es kw path key keys sub n rs e hs hes hsub herr, hown]
  · intro sub n m rs rr hes hsub hok hrest
    refine ⟨max n m + 1, fun fuel hf => ?_⟩
    have h1 := recursiveLookup_subOk es kw path key keys sub (max n m) rs hs hes
      (recursiveLookup_mono es kw _ sub rs n _ (le_max_left n m) hsub) hok
    rw [recursiveLookup_mono es kw path keys rr m _ (le_max_right n m) hrest] at h1
    refine recursiveLookup_mono es kw path (key :: keys) _ _ fuel hf ?_
    rw [h1, hown]
    rfl

/-- C6, on the store holding only `a/b/foo`: below `/a/`, the folder `b/` is
reported for the keyword `b` and traversed, and its leaf `foo` is not
reported; and on the store whose listing of `/a/b/` fails: the folder `b/` is
reported with the error of its listing, and the root folder `a/` is reported
for the keyword `a` with the error returned by the lookup below it, before its
sibling `z`. -/
theorem C6_witness_folder_b :
    HasSuffix "b/".toList sep = true ∧ Contains (Trim "b/".toList sep) "b".toList = true ∧
    (∃ N, ∀ fuel, N ≤ fuel →
      recursiveLookup storeABFoo "b".toList fuel "/a/".toList ["b/".toList]
        = some ⟨["/a/b/".toList], none, ["/a/b/".toList]⟩) ∧
    Search storeABFoo "b".toList 4
      = some ⟨["/a/b/".toList], none, ["/".toList, "/a/".toList, "/a/b/".toList]⟩ ∧
    (∀ fuel, 1 ≤ fuel →
      recursiveLookup storeFailing "b".toList fuel "/a/".toList ["b/".toList]
        = some ⟨["/a/b/".toList], some "sealed", ["/a/b/".toList]⟩) ∧
    (∀ fuel, 2 + 1 ≤ fuel →
      recursiveLookup storeFailing "a".toList fuel "/".toList ["a/".toList, "z".toList]
        = some ⟨["/a/".toList], some "sealed", ["/a/".toList, "/a/b/".toList]⟩) :=
  ⟨by decide, by decide,
    (C6_matching_folder_is_reported_and_traversed storeABFoo "b".toList "/a/".toList
      "b/".toList [] (by decide) (by decide)).2.2.2.2 ["foo".toList] 2 1
      ⟨[], none, []⟩ ⟨[], none, []⟩ (by decide) (by decide) rfl (by decide),
    by decide,
    (C6_matching_folder_is_reported_and_traversed storeFailing "b".toList "/a/".toList
      "b/".toList [] (by decide) (by decide)).2.2.1 "sealed" (by decide),
    (C6_matching_folder_is_reported_and_traversed storeFailing "a".toList "/".toList
      "a/".toList ["z".toList] (by decide) (by decide)).2.2.2.1
      ["foo".toList, "b/".toList] 2 ⟨[], some "sealed", ["/a/b/".toList]⟩ "sealed"
      (by decide) (by decide) rfl⟩

/-! ## Where the keys come from -/

theorem FromCall.mono {E : Type} {es : Lister E} {kw k : GoString} {c1 c2 : List GoString}
    (hsub : ∀ p ∈ c1, p ∈ c2) (h : FromCall es kw c1 k) : FromCall es kw c2 k := by
  obtain ⟨p, e, hk, hp, hes, he, hm⟩ := h
  exact ⟨p, e, hk, hsub p hp, hes, he, hm⟩

theorem mem_ownMatch {kw path key k : GoString} (h : k ∈ ownMatch kw path key) :
    k = path ++ key ∧ Contains (Trim key sep) kw = true := by
  unfold ownMatch at h
  by_cases hm : Contains (Trim key sep) kw = true
  · simp [hm] at h; exact ⟨h, hm⟩
  · simp [hm] at h

/-- Every key returned by `recursiveLookup` is a matching entry of the keys
it was given, under its path, or stems from a listing call it made. -/
theorem keys_origin {E : Type} (es : Lister E) (kw : GoString) :
    ∀ (fuel : Nat) (path : GoString) (keys : List GoString) (r : LookupResult E),
      recursiveLookup es kw fuel path keys = some r →
      ∀ k ∈ r.keys,
        (∃ e ∈ keys, k = path ++ e ∧ Contains (Trim e sep) kw = true) ∨
          FromCall es kw r.calls k := by
  intro fuel
  induction fuel with
  | zero => intro path keys r h; simp [recursiveLookup_zero] at h
  | succ n ih =>
    intro path keys r h k hk
    cases keys with
    | nil =>
      rw [recursiveLookup_nil] at h
      simp only [Option.some.injEq] at h
      subst h
      simp at hk
    | cons key keys =>
      have hown : ∀ k ∈ ownMatch kw path key,
          ∃ e ∈ key :: keys, k = path ++ e ∧ Contains (Trim e sep) kw = true :=
        fun k hk => ⟨key, List.mem_cons_self _ _, (mem_ownMatch hk).1, (mem_ownMatch hk).2⟩
      by_cases hs : HasSuffix key sep = true
      · rcases hes : es (path ++ key) with ⟨sub, _ | e⟩
        · rcases hsub : recursiveLookup es kw n (path ++ key) sub with _ | s
          · rw [recursiveLookup_subNone es kw path key keys sub n hs hes hsub] at h
            simp at h
          · rcases herr : s.err with _ | e
            · rw [recursiveLookup_subOk es kw path key keys sub n s hs hes hsub herr] at h
              rcases hrest : recursiveLookup es kw n path keys with _ | t
              · rw [hrest] at h; simp at h
              · rw [hrest] at h
                simp only [Option.map_some', Option.some.injEq] at h
                subst h
                simp only [LookupResult.shift, List.mem_append] at hk ⊢
                rcases hk with (hk | hk) | hk
                · exact Or.inl (hown k hk)
                · right
                  rcases ih _ _ _ hsub k hk with ⟨e, he, hke, hm⟩ | hfc
                  · refine ⟨path ++ key, e, hke, by simp, by rw [hes], by rw [hes]; exact he, hm⟩
                  · exact hfc.mono (fun p hp => by simp [hp])
                · rcases ih _ _ _ hrest k hk with ⟨e, he, hke, hm⟩ | hfc
                  · exact Or.inl ⟨e, List.mem_cons_of_mem _ he, hke, hm⟩
                  · exact Or.inr (hfc.mono (fun p hp => by simp [hp]))
            · rw [recursiveLookup_subFails es kw path key keys sub n s e hs hes hsub herr] at h
              simp only [Option.some.injEq] at h
              subst h
              exact Or.inl (hown k hk)
        · have he : (es (path ++ key)).2 = some e := by rw [hes]
          rw [recursiveLookup_listFails es kw path key keys n e hs he] at h
          simp only [Option.some.injEq] at h
          subst h
          exact Or.inl (hown k hk)
      · have hs2 : HasSuffix key sep = false := by simpa using hs
        rw [recursiveLookup_leaf es kw path key keys n hs2] at h
        rcases hrest : recursiveLookup es kw n path keys with _ | t
        · rw [hrest] at h; simp at h
        · rw [hrest] at h
          simp only [Option.map_some', Option.some.injEq] at h
          subst h
          simp only [LookupResult.shift, List.mem_append, List.nil_append] at hk ⊢
          rcases hk with hk | hk
          · exact Or.inl (hown k hk)
          · rcases ih _ _ _ hrest k hk with ⟨e, he, hke, hm⟩ | hfc
            · exact Or.inl ⟨e, List.mem_cons_of_mem _ he, hke, hm⟩
            · exact Or.inr hfc

/-- Every key of a search whose root listing succeeds stems from a listing call made. -/
theorem search_keys_fromCall {E : Type} (es : Lister E) (kw : GoString) (fuel : Nat)
    (r : LookupResult E) (h : Search es kw fuel = some r) (hroot : (es sep).2 = none) :
    ∀ k ∈ r.keys, FromCall es kw r.calls k := by
  intro k hk
  unfold Search at h
  rcases hes : es sep with ⟨keys, _ | e⟩
  · rw [hes] at h
    simp only [] at h
    rcases hrec : recursiveLookup es kw fuel sep keys with _ | s
    · rw [hrec] at h; simp at h
    · rw [hrec] at h
      simp only [Option.some.injEq] at h
      subst h
      rcases keys_origin es kw fuel sep keys s hrec k hk with ⟨e, he, hke, hm⟩ | hfc
      · exact ⟨sep, e, hke, by simp, hroot, by rw [hes]; exact he, hm⟩
      · exact hfc.mono (fun p hp => by simp [hp])
  · rw [hes] at hroot; simp at hroot

/-- What `Search` returns when the root listing fails: the entries and the
error of that call, after the single call. -/
theorem search_root_fails {E : Type} (es : Lister E) (kw : GoString) (fuel : Nat) (e : E)
    (hroot : (es sep).2 = some e) : Search es kw fuel = some ⟨(es sep).1, some e, [sep]⟩ := by
  unfold Search
  rcases hes : es sep with ⟨keys, _ | e2⟩
  · rw [hes] at hroot; simp at hroot
  · rw [hes] at hroot
    simp only [Option.some.injEq] at hroot
    simp [hroot]

/-- C10 as stated fails when the root listing fails while returning entries:
`Search` hands back the entry `x` of the failing call as it is, and `x` is not
a listed path followed by an entry. -/
theorem C10_counterexample_root_entries_unprefixed :
    ∃ r, Search storeRootFails "foo".toList 1 = some r ∧
      ∃ k ∈ r.keys, ¬ ∃ p e, k = p ++ e ∧ p ∈ r.calls ∧ e ∈ (storeRootFails p).1 := by
  refine ⟨⟨["x".toList], some "sealed", [sep]⟩, by decide, "x".toList, by simp, ?_⟩
  rintro ⟨p, e, hk, hp, -⟩
  simp only [List.mem_singleton] at hp
  subst hp
  simp [sep] at hk

/-- C10, amended: every key that `Search` returns, with or without an error,
is the path of a listing call made in this run, which succeeded, followed by
an entry which that call returned, or else the root listing failed, was the
only call, and the key is an entry which that failing call returned. So a path
that no listing yields any more is not among the keys. -/
theorem C10_keys_stem_from_listings_of_this_run {E : Type} (es : Lister E) (kw : GoString)
    (fuel : Nat) (r : LookupResult E) (h : Search es kw fuel = some r) :
    (∀ k ∈ r.keys,
      (∃ p e, k = p ++ e ∧ p ∈ r.calls ∧ (es p).2 = none ∧ e ∈ (es p).1) ∨
        ((es sep).2 ≠ none ∧ r.calls = [sep] ∧ k ∈ (es sep).1)) ∧
    (∀ k, (∀ p, ∀ e ∈ (es p).1, k ≠ p ++ e ∧ k ≠ e) → k ∉ r.keys) := by
  have main : ∀ k ∈ r.keys,
      (∃ p e, k = p ++ e ∧ p ∈ r.calls ∧ (es p).2 = none ∧ e ∈ (es p).1) ∨
        ((es sep).2 ≠ none ∧ r.calls = [sep] ∧ k ∈ (es sep).1) := by
    intro k hk
    rcases hroot : (es sep).2 with _ | e
    · obtain ⟨p, e, hke, hp, hes, he, _⟩ := search_keys_fromCall es kw fuel r h hroot k hk
      exact Or.inl ⟨p, e, hke, hp, hes, he⟩
    · rw [search_root_fails es kw fuel e hroot] at h
      simp only [Option.some.injEq] at h
      subst h
      exact Or.inr ⟨by simp, rfl, hk⟩
  refine ⟨main, fun k hno hk => ?_⟩
  rcases main k hk with ⟨p, e, hke, _, _, he⟩ | ⟨_, _, he⟩
  · exact (hno p e he).1 hke
  · exact (hno sep k he).2 rfl

/-- C10, on the store of the tests: with `a/b/foo` stored, the key
`/a/b/foo` stems from the listing of `/a/b/`; once it is deleted the search
for `foo` has no keys. -/
theorem C10_witness_deleted :
    Search storeABFoo "foo".toList 4
      = some ⟨["/a/b/foo".toList], none, ["/".toList, "/a/".toList, "/a/b/".toList]⟩ ∧
    (∀ k ∈ ["/a/b/foo".toList],
      (∃ p e, k = p ++ e ∧ p ∈ ["/".toList, "/a/".toList, "/a/b/".toList] ∧
          (storeABFoo p).2 = none ∧ e ∈ (storeABFoo p).1) ∨
        ((storeABFoo sep).2 ≠ none ∧ ["/".toList, "/a/".toList, "/a/b/".toList] = [sep] ∧
          k ∈ (storeABFoo sep).1)) ∧
    Search storeEmpty "foo".toList 4 = some ⟨[], none, ["/".toList]⟩ :=
  ⟨by decide,
    (C10_keys_stem_from_listings_of_this_run storeABFoo "foo".toList 4
      ⟨["/a/b/foo".toList], none, ["/".toList, "/a/".toList, "/a/b/".toList]⟩ (by decide)).1,
    by decide⟩

/-! ## The last path segment -/

theorem dropWhile_sep_of_not_mem (l : GoString) (h : '/' ∉ l) :
    l.dropWhile (fun c => sep.elem c) = l := by
  cases l with
  | nil => rfl
  | cons c l =>
    have hc : c ≠ '/' := fun hc => h (by simp [hc])
    have hb : (c == '/') = false := by simpa using hc
    simp [List.dropWhile, sep, List.elem, hb]

theorem takeWhile_segment (seg t : GoString) (h : '/' ∉ seg) :
    ((seg.reverse ++ '/' :: t).takeWhile (fun c => c != '/')) = seg.reverse := by
  rw [List.takeWhile_append_of_pos]
  · simp [List.takeWhile]
  · intro a ha
    have : a ≠ '/' := fun hc => h (by rw [← hc]; exact List.mem_reverse.mp ha)
    simpa using this

theorem hasSuffix_sep_iff (p : GoString) :
    HasSuffix p sep = true ↔ ∃ t, p = t ++ ['/'] := by
  simp only [HasSuffix, List.isSuffixOf_iff_suffix, sep]
  constructor
  · rintro ⟨t, ht⟩; exact ⟨t, ht.symm⟩
  · rintro ⟨t, ht⟩; exact ⟨t, ht.symm⟩

theorem hasSuffix_concat_ne (l : GoString) (c : Char) (hc : c ≠ '/') :
    HasSuffix (l ++ [c]) sep = false := by
  rw [Bool.eq_false_iff]
  intro h
  obtain ⟨t, ht⟩ := (hasSuffix_sep_iff _).mp h
  have := List.append_inj_right' ht rfl
  simp at this
  exact hc this

/-- For a single-segment entry with a name, listed under a path that ends
with the separator, the last segment of the full path is the trimmed entry. -/
theorem lastSegment_append (p e : GoString) (hp : HasSuffix p sep = true)
    (he : SingleSegment e) (hne : e ≠ []) : lastSegment (p ++ e) = Trim e sep := by
  obtain ⟨t, rfl⟩ := (hasSuffix_sep_iff p).mp hp
  obtain ⟨seg, c, rfl⟩ : ∃ seg c, e = seg ++ [c] :=
    ⟨e.dropLast, e.getLast hne, (List.dropLast_append_getLast hne).symm⟩
  have hseg : '/' ∉ seg := by simpa [SingleSegment] using he
  have hrev : '/' ∉ seg.reverse := fun h => hseg (List.mem_reverse.mp h)
  by_cases hc : c = '/'
  · subst hc
    have h1 : HasSuffix (t ++ ['/'] ++ (seg ++ ['/'])) sep = true :=
      (hasSuffix_sep_iff _).mpr ⟨t ++ ['/'] ++ seg, by simp⟩
    have h2 : (t ++ ['/'] ++ (seg ++ ['/'])).dropLast = t ++ ['/'] ++ seg := by
      rw [← List.append_assoc, List.dropLast_concat]
    have h3 : TrimRight (seg ++ ['/']) sep = seg := by
      simp only [TrimRight, List.reverse_append, List.reverse_singleton, List.singleton_append]
      rw [List.dropWhile_cons_of_pos (by simp [sep, List.elem]),
        dropWhile_sep_of_not_mem _ hrev, List.reverse_reverse]
    simp only [lastSegment, h1, if_true, h2, Trim, TrimLeft, h3,
      dropWhile_sep_of_not_mem _ hseg]
    rw [List.reverse_append, List.reverse_append, List.reverse_singleton, List.singleton_append,
      takeWhile_segment seg _ hseg, List.reverse_reverse]
  · have hall : '/' ∉ seg ++ [c] := by
      simp only [List.mem_append, List.mem_singleton, not_or]
      exact ⟨hseg, fun h => hc h.symm⟩
    have h1 : HasSuffix (t ++ ['/'] ++ (seg ++ [c])) sep = false := by
      rw [← List.append_assoc]; exact hasSuffix_concat_ne _ c hc
    have h3 : TrimRight (seg ++ [c]) sep = seg ++ [c] := by
      simp only [TrimRight]
      rw [dropWhile_sep_of_not_mem _ (fun h => hall (List.mem_reverse.mp h)),
        List.reverse_reverse]
    simp only [lastSegment, h1, Bool.false_eq_true, if_false, Trim, TrimLeft, h3,
      dropWhile_sep_of_not_mem _ hall]
    rw [List.reverse_append, List.reverse_append t, List.reverse_singleton,
      List.singleton_append, takeWhile_segment (seg ++ [c]) _ hall, List.reverse_reverse]

/-- Every path that `recursiveLookup` lists ends with the separator. -/
theorem calls_hasSuffix {E : Type} (es : Lister E) (kw : GoString) :
    ∀ (fuel : Nat) (path : GoString) (keys : List GoString) (r : LookupResult E),
      recursiveLookup es kw fuel path keys = some r →
      ∀ p ∈ r.calls, HasSuffix p sep = true := by
  intro fuel
  induction fuel with
  | zero => intro path keys r h; simp [recursiveLookup_zero] at h
  | succ n ih =>
    intro path keys r h p hp
    cases keys with
    | nil =>
      rw [recursiveLookup_nil] at h
      simp only [Option.some.injEq] at h
      subst h
      simp at hp
    | cons key keys =>
      by_cases hs : HasSuffix key sep = true
      · have hfull := hasSuffix_append path key hs
        rcases hes : es (path ++ key) with ⟨sub, _ | e⟩
        · rcases hsub : recursiveLookup es kw n (path ++ key) sub with _ | s
          · rw [recursiveLookup_subNone es kw path key keys sub n hs hes hsub] at h
            simp at h
          · rcases herr : s.err with _ | e
            · rw [recursiveLookup_subOk es kw path key keys sub n s hs hes hsub herr] at h
              rcases hrest : recursiveLookup es kw n path keys with _ | t
              · rw [hrest] at h; simp at h
              · rw [hrest] at h
                simp only [Option.map_some', Option.some.injEq] at h
                subst h
                simp only [LookupResult.shift, List.cons_append, List.mem_cons,
                  List.mem_append] at hp
                rcases hp with hp | hp | hp
                · rw [hp]; exact hfull
                · exact ih _ _ _ hsub p hp
                · exact ih _ _ _ hrest p hp
            · rw [recursiveLookup_subFails es kw path key keys sub n s e hs hes hsub herr] at h
              simp only [Option.some.injEq] at h
              subst h
              simp only [List.mem_cons] at hp
              rcases hp with hp | hp
              · rw [hp]; exact hfull
              · exact ih _ _ _ hsub p hp
        · have he : (es (path ++ key)).2 = some e := by rw [hes]
          rw [recursiveLookup_listFails es kw path key keys n e hs he] at h
          simp only [Option.some.injEq] at h
          subst h
          simp only [List.mem_singleton] at hp
          rw [hp]; exact hfull
      · have hs2 : HasSuffix key sep = false := by simpa using hs
        rw [recursiveLookup_leaf es kw path key keys n hs2] at h
        rcases hrest : recursiveLookup es kw n path keys with _ | t
        · rw [hrest] at h; simp at h
        · rw [hrest] at h
          simp only [Option.map_some', Option.some.injEq] at h
          subst h
          simp only [LookupResult.shift, List.nil_append] at hp
          exact ih _ _ _ hrest p hp

theorem search_calls_hasSuffix {E : Type} (es : Lister E) (kw : GoString) (fuel : Nat)
    (r : LookupResult E) (h : Search es kw fuel = some r) :
    ∀ p ∈ r.calls, HasSuffix p sep = true := by
  intro p hp
  unfold Search at h
  rcases hes : es sep with ⟨keys, _ | e⟩
  · rw [hes] at h
    simp only [] at h
    rcases hrec : recursiveLookup es kw fuel sep keys with _ | s
    · rw [hrec] at h; simp at h
    · rw [hrec] at h
      simp only [Option.some.injEq] at h
      subst h
      simp only [List.mem_cons] at hp
      rcases hp with hp | hp
      · rw [hp]; rfl
      · exact calls_hasSuffix es kw fuel sep keys s hrec p hp
  · rw [hes] at h
    simp only [Option.some.injEq] at h
    subst h
    simp only [List.mem_singleton] at hp
    rw [hp]; rfl

/-- C8 as stated fails when the root listing fails while returning entries:
the entry `x` of the failing call is a single segment, is returned for the
keyword `foo`, and its last segment `x` does not contain `foo`. -/
theorem C8_counterexample_root_entries_unmatched :
    (∀ p, ∀ e ∈ (storeRootFails p).1, SingleSegment e) ∧
    ∃ r, Search storeRootFails "foo".toList 1 = some r ∧
      ∃ k ∈ r.keys, Contains (lastSegment k) "foo".toList = false := by
  refine ⟨?_, ⟨["x".toList], some "sealed", [sep]⟩, by decide, "x".toList, by simp, by decide⟩
  intro p e he
  unfold storeRootFails at he
  split_ifs at he
  · simp only [List.mem_singleton] at he
    subst he
    simp [SingleSegment]
  · simp at he

/-- C8, amended: for a lister whose entries are single path segments and
whose root listing, if it fails, returns no entries, every key that `Search`
returns has a last path segment that contains the keyword. -/
theorem C8_keys_match_on_last_segment {E : Type} (es : Lister E) (kw : GoString)
    (fuel : Nat) (r : LookupResult E) (hseg : ∀ p, ∀ e ∈ (es p).1, SingleSegment e)
    (hroot : (es sep).2 ≠ none → (es sep).1 = []) (h : Search es kw fuel = some r) :
    ∀ k ∈ r.keys, Contains (lastSegment k) kw = true := by
  intro k hk
  rcases hr : (es sep).2 with _ | e
  · obtain ⟨p, e, hke, hp, _, he, hm⟩ := search_keys_fromCall es kw fuel r h hr k hk
    by_cases hkw : kw = []
    · rw [hkw]; exact contains_nil _
    · have hne : e ≠ [] := by
        intro hnil
        subst hnil
        cases kw with
        | nil => exact hkw rfl
        | cons c kw => simp [Trim, TrimLeft, TrimRight, Contains] at hm
      rw [hke, lastSegment_append p e (search_calls_hasSuffix es kw fuel r h p hp)
        (hseg p e he) hne]
      exact hm
  · rw [search_root_fails es kw fuel e hr] at h
    simp only [Option.some.injEq] at h
    subst h
    rw [hroot (by rw [hr]; simp)] at hk
    simp at hk

theorem singleSegment_storeABFoo : ∀ p, ∀ e ∈ (storeABFoo p).1, SingleSegment e := by
  intro p e he
  unfold storeABFoo at he
  split_ifs at he <;> simp only [List.mem_singleton, List.not_mem_nil] at he <;>
    subst he <;> simp [SingleSegment]

/-- C8, on the store holding only `a/b/foo`: `Search("a")` is `["/a/"]`,
neither `/a/b/` nor `/a/b/foo`, and the last segment `a` contains the keyword. -/
theorem C8_witness_parent_name :
    (∀ p, ∀ e ∈ (storeABFoo p).1, SingleSegment e) ∧
    ((storeABFoo sep).2 ≠ none → (storeABFoo sep).1 = []) ∧
    Search storeABFoo "a".toList 4
      = some ⟨["/a/".toList], none, ["/".toList, "/a/".toList, "/a/b/".toList]⟩ ∧
    ∀ k ∈ ["/a/".toList], Contains (lastSegment k) "a".toList = true :=
  ⟨singleSegment_storeABFoo, by decide, by decide,
    C8_keys_match_on_last_segment storeABFoo "a".toList 4
      ⟨["/a/".toList], none, ["/".toList, "/a/".toList, "/a/b/".toList]⟩
      singleSegment_storeABFoo (by decide) (by decide)⟩

/-! ## A failing listing replaced by an empty one -/

/-- Against a lister that agrees with `es` on every listing that succeeds
under `es`: a lookup without error returns the same, and the keys of a lookup
with an error open the keys of the other. -/
theorem lookup_prefix_of_agree {E : Type} (es es2 : Lister E) (kw : GoString)
    (hag : ∀ q, (es q).2 = none → es2 q = es q) :
    ∀ (n m : Nat) (path : GoString) (keys : List GoString) (r r2 : LookupResult E),
      recursiveLookup es kw n path keys = some r →
      recursiveLookup es2 kw m path keys = some r2 →
      (r.err = none → r2 = r) ∧ r.keys <+: r2.keys := by
  intro n
  induction n with
  | zero => intro m path keys r r2 h; simp [recursiveLookup_zero] at h
  | succ n ih =>
    intro m path keys r r2 h h2
    cases m with
    | zero => simp [recursiveLookup_zero] at h2
    | succ m =>
      cases keys with
      | nil =>
        rw [recursiveLookup_nil] at h h2
        simp only [Option.some.injEq] at h h2
        subst h; subst h2
        exact ⟨fun _ => rfl, List.prefix_rfl⟩
      | cons key keys =>
        have hown := ownMatch_prefix_keys es2 kw path key keys (m + 1) r2 h2
        by_cases hs : HasSuffix key sep = true
        · rcases hes : es (path ++ key) with ⟨sub, _ | e⟩
          · have hes2 : es2 (path ++ key) = (sub, none) := by
              rw [hag _ (by rw [hes])]; exact hes
            rcases hsub : recursiveLookup es kw n (path ++ key) sub with _ | s
            · rw [recursiveLookup_subNone es kw path key keys sub n hs hes hsub] at h
              simp at h
            rcases hsub2 : recursiveLookup es2 kw m (path ++ key) sub with _ | s2
            · rw [recursiveLookup_subNone es2 kw path key keys sub m hs hes2 hsub2] at h2
              simp at h2
            obtain ⟨hsame, _⟩ := ih m _ _ s s2 hsub hsub2
            rcases herr : s.err with _ | e
            · have hs2s : s2 = s := hsame herr
              subst hs2s
              rw [recursiveLookup_subOk es kw path key keys sub n s2 hs hes hsub herr] at h
              rw [recursiveLookup_subOk es2 kw path key keys sub m s2 hs hes2 hsub2 herr] at h2
              rcases hrest : recursiveLookup es kw n path keys with _ | t
              · rw [hrest] at h; simp at h
              rcases hrest2 : recursiveLookup es2 kw m path keys with _ | t2
              · rw [hrest2] at h2; simp at h2
              rw [hrest] at h
              rw [hrest2] at h2
              simp only [Option.map_some', Option.some.injEq] at h h2
              subst h; subst h2
              obtain ⟨hsame2, hpre2⟩ := ih m _ _ t t2 hrest hrest2
              refine ⟨fun hr => ?_, ?_⟩
              · rw [hsame2 hr]
              · exact (List.prefix_append_right_inj _).mpr hpre2
            · rw [recursiveLookup_subFails es kw path key keys sub n s e hs hes hsub herr] at h
              simp only [Option.some.injEq] at h
              subst h
              exact ⟨fun hr => by simp at hr, hown⟩
          · have he : (es (path ++ key)).2 = some e := by rw [hes]
            rw [recursiveLookup_listFails es kw path key keys n e hs he] at h
            simp only [Option.some.injEq] at h
            subst h
            exact ⟨fun hr => by simp at hr, hown⟩
        · have hsf : HasSuffix key sep = false := by simpa using hs
          rw [recursiveLookup_leaf es kw path key keys n hsf] at h
          rw [recursiveLookup_leaf es2 kw path key keys m hsf] at h2
          rcases hrest : recursiveLookup es kw n path keys with _ | t
          · rw [hrest] at h; simp at h
          rcases hrest2 : recursiveLookup es2 kw m path keys with _ | t2
          · rw [hrest2] at h2; simp at h2
          rw [hrest] at h
          rw [hrest2] at h2
          simp only [Option.map_some', Option.some.injEq] at h h2
          subst h; subst h2
          obtain ⟨hsame2, hpre2⟩ := ih m _ _ t t2 hrest hrest2
          refine ⟨fun hr => ?_, ?_⟩
          · rw [hsame2 hr]
          · exact (List.prefix_append_right_inj _).mpr hpre2

/-- A lookup that returns an error made its last listing call on a path
whose listing returns that error. -/
theorem last_call_fails {E : Type} (es : Lister E) (kw : GoString) :
    ∀ (fuel : Nat) (path : GoString) (keys : List GoString) (r : LookupResult E) (e : E),
      recursiveLookup es kw fuel path keys = some r → r.err = some e →
      ∃ p, r.calls.getLast? = some p ∧ (es p).2 = some e := by
  intro fuel
  induction fuel with
  | zero => intro path keys r e h; simp [recursiveLookup_zero] at h
  | succ n ih =>
    intro path keys r e h hr
    cases keys with
    | nil =>
      rw [recursiveLookup_nil] at h
      simp only [Option.some.injEq] at h
      subst h
      simp at hr
    | cons key keys =>
      by_cases hs : HasSuffix key sep = true
      · rcases hes : es (path ++ key) with ⟨sub, _ | e2⟩
        · rcases hsub : recursiveLookup es kw n (path ++ key) sub with _ | s
          · rw [recursiveLookup_subNone es kw path key keys sub n hs hes hsub] at h
            simp at h
          rcases herr : s.err with _ | e3
          · rw [recursiveLookup_subOk es kw path key keys sub n s hs hes hsub herr] at h
            rcases hrest : recursiveLookup es kw n path keys with _ | t
            · rw [hrest] at h; simp at h
            rw [hrest] at h
            simp only [Option.map_some', Option.some.injEq] at h
            subst h
            obtain ⟨p, hp, hpe⟩ := ih _ _ t e hrest hr
            refine ⟨p, ?_, hpe⟩
            simp only [LookupResult.shift]
            rw [List.getLast?_append, hp]
            rfl
          · rw [recursiveLookup_subFails es kw path key keys sub n s e3 hs hes hsub herr] at h
            simp only [Option.some.injEq] at h
            subst h
            simp only [Option.some.injEq] at hr
            subst hr
            obtain ⟨p, hp, hpe⟩ := ih _ _ s e3 hsub herr
            refine ⟨p, ?_, hpe⟩
            rw [← List.singleton_append, List.getLast?_append, hp]
            rfl
        · have he : (es (path ++ key)).2 = some e2 := by rw [hes]
          rw [recursiveLookup_listFails es kw path key keys n e2 hs he] at h
          simp only [Option.some.injEq] at h
          subst h
          simp only [Option.some.injEq] at hr
          subst hr
          exact ⟨path ++ key, rfl, he⟩
      · have hsf : HasSuffix key sep = false := by simpa using hs
        rw [recursiveLookup_leaf es kw path key keys n hsf] at h
        rcases hrest : recursiveLookup es kw n path keys with _ | t
        · rw [hrest] at h; simp at h
        rw [hrest] at h
        simp only [Option.map_some', Option.some.injEq] at h
        subst h
        obtain ⟨p, hp, hpe⟩ := ih _ _ t e hrest hr
        exact ⟨p, by simpa [LookupResult.shift] using hp, hpe⟩

theorem matching_cons (kw path name : GoString) (l : List (GoString × GoString)) :
    (((path, name) :: l).filter (entryMatches kw)).map entryPath
      = ownMatch kw path name ++ (l.filter (entryMatches kw)).map entryPath := by
  rw [ownMatch_eq_filter, ← List.map_append, ← List.filter_append]
  rfl

/-- The keys of the run read off a hierarchy are, in order, among the matching
entries reached before the first failing listing. -/
theorem walk_keys_sublist_visited {E : Type} (kw : GoString) :
    ∀ (t : Listing E) (path : GoString),
      List.Sublist (t.walk kw path).keys (t.visitedMatchingPaths kw path) := by
  intro t
  induction t with
  | nil => intro path; exact List.Sublist.refl _
  | leaf name rest ih =>
    intro path
    simp only [Listing.walk, LookupResult.shift, Listing.visitedMatchingPaths, Listing.visited,
      matching_cons]
    exact (List.Sublist.refl _).append (ih path)
  | folder name sub rest ihs ihr =>
    intro path
    have herr := walk_err kw sub (path ++ name)
    simp only [Listing.walk, Listing.visitedMatchingPaths, Listing.visited, matching_cons,
      List.filter_append, List.map_append]
    rcases hf : sub.firstFailure with _ | e
    · rw [hf] at herr
      rw [herr]
      simp only [LookupResult.shift, List.append_assoc]
      exact (List.Sublist.refl _).append ((ihs (path ++ name)).append (ihr path))
    · rw [hf] at herr
      rw [herr]
      exact List.sublist_append_left _ _
  | failing name err rest _ =>
    intro path
    simp only [Listing.walk, Listing.visitedMatchingPaths, Listing.visited, matching_cons,
      List.filter_nil, List.map_nil, List.append_nil]
    exact List.Sublist.refl _

/-- Every path that `recursiveLookup` lists lies below the path it was given. -/
theorem calls_below_path {E : Type} (es : Lister E) (kw : GoString) :
    ∀ (fuel : Nat) (path : GoString) (keys : List GoString) (r : LookupResult E),
      recursiveLookup es kw fuel path keys = some r → ∀ q ∈ r.calls, path <+: q := by
  intro fuel
  induction fuel with
  | zero => intro path keys r h; simp [recursiveLookup_zero] at h
  | succ n ih =>
    intro path keys r h q hq
    cases keys with
    | nil =>
      rw [recursiveLookup_nil] at h
      simp only [Option.some.injEq] at h
      subst h
      simp at hq
    | cons key keys =>
      have hfp : path <+: path ++ key := List.prefix_append _ _
      by_cases hs : HasSuffix key sep = true
      · rcases hes : es (path ++ key) with ⟨sub, _ | e⟩
        · rcases hsub : recursiveLookup es kw n (path ++ key) sub with _ | s
          · rw [recursiveLookup_subNone es kw path key keys sub n hs hes hsub] at h
            simp at h
          rcases herr : s.err with _ | e
          · rw [recursiveLookup_subOk es kw path key keys sub n s hs hes hsub herr] at h
            rcases hrest : recursiveLookup es kw n path keys with _ | t
            · rw [hrest] at h; simp at h
            rw [hrest] at h
            simp only [Option.map_some', Option.some.injEq] at h
            subst h
            simp only [LookupResult.shift, List.cons_append, List.mem_cons,
              List.mem_append] at hq
            rcases hq with hq | hq | hq
            · rw [hq]; exact hfp
            · exact hfp.trans (ih _ _ s hsub q hq)
            · exact ih _ _ t hrest q hq
          · rw [recursiveLookup_subFails es kw path key keys sub n s e hs hes hsub herr] at h
            simp only [Option.some.injEq] at h
            subst h
            simp only [List.mem_cons] at hq
            rcases hq with hq | hq
            · rw [hq]; exact hfp
            · exact hfp.trans (ih _ _ s hsub q hq)
        · have he : (es (path ++ key)).2 = some e := by rw [hes]
          rw [recursiveLookup_listFails es kw path key keys n e hs he] at h
          simp only [Option.some.injEq] at h
          subst h
          simp only [List.mem_singleton] at hq
          rw [hq]; exact hfp
      · have hsf : HasSuffix key sep = false := by simpa using hs
        rw [recursiveLookup_leaf es kw path key keys n hsf] at h
        rcases hrest : recursiveLookup es kw n path keys with _ | t
        · rw [hrest] at h; simp at h
        rw [hrest] at h
        simp only [Option.map_some', Option.some.injEq] at h
        subst h
        simp only [LookupResult.shift, List.nil_append] at hq
        exact ih _ _ t hrest q hq

/-- A lookup that returns an error splits its entries at the folder entry
under which the listing failed: the entries before it were looked up without
error, and the keys returned are theirs, followed by the own match of that
folder entry; the last call made lies at or below that folder. -/
theorem lookup_fail_split {E : Type} (es : Lister E) (kw : GoString) :
    ∀ (fuel : Nat) (path : GoString) (keys : List GoString) (r : LookupResult E) (e : E),
      recursiveLookup es kw fuel path keys = some r → r.err = some e →
      ∃ pre key post rp p, keys = pre ++ key :: post ∧ HasSuffix key sep = true ∧
        recursiveLookup es kw fuel path pre = some rp ∧ rp.err = none ∧
        r.keys = rp.keys ++ ownMatch kw path key ∧
        r.calls.getLast? = some p ∧ path ++ key <+: p := by
  intro fuel
  induction fuel with
  | zero => intro path keys r e h; simp [recursiveLookup_zero] at h
  | succ n ih =>
    intro path keys r e h hr
    cases keys with
    | nil =>
      rw [recursiveLookup_nil] at h
      simp only [Option.some.injEq] at h
      subst h
      simp at hr
    | cons key keys =>
      by_cases hs : HasSuffix key sep = true
      · rcases hes : es (path ++ key) with ⟨sub, _ | e2⟩
        · rcases hsub : recursiveLookup es kw n (path ++ key) sub with _ | s
          · rw [recursiveLookup_subNone es kw path key keys sub n hs hes hsub] at h
            simp at h
          rcases herr : s.err with _ | e3
          · rw [recursiveLookup_subOk es kw path key keys sub n s hs hes hsub herr] at h
            rcases hrest : recursiveLookup es kw n path keys with _ | t
            · rw [hrest] at h; simp at h
            rw [hrest] at h
            simp only [Option.map_some', Option.some.injEq] at h
            subst h
            obtain ⟨pre, k2, post, rp, p, hk, hs2, hpre, hrp, hkeys, hlast, hp⟩ :=
              ih path keys t e hrest hr
            refine ⟨key :: pre, k2, post,
              rp.shift (ownMatch kw path key ++ s.keys) ((path ++ key) :: s.calls), p,
              by rw [hk]; rfl, hs2, ?_, hrp, ?_, ?_, hp⟩
            · rw [recursiveLookup_subOk es kw path key pre sub n s hs hes hsub herr, hpre]
              rfl
            · simp only [LookupResult.shift, hkeys, List.append_assoc]
            · simp only [LookupResult.shift]
              rw [List.getLast?_append, hlast]
              rfl
          · rw [recursiveLookup_subFails es kw path key keys sub n s e3 hs hes hsub herr] at h
            simp only [Option.some.injEq] at h
            subst h
            obtain ⟨p, hp, _⟩ := last_call_fails es kw n _ sub s e3 hsub herr
            have hmem : p ∈ s.calls := List.mem_of_getLast?_eq_some hp
            refine ⟨[], key, keys, ⟨[], none, []⟩, p, rfl, hs, recursiveLookup_nil es kw path n,
              rfl, rfl, ?_, calls_below_path es kw n _ sub s hsub p hmem⟩
            rw [← List.singleton_append, List.getLast?_append, hp]
            rfl
        · have he : (es (path ++ key)).2 = some e2 := by rw [hes]
          rw [recursiveLookup_listFails es kw path key keys n e2 hs he] at h
          simp only [Option.some.injEq] at h
          subst h
          exact ⟨[], key, keys, ⟨[], none, []⟩, path ++ key, rfl, hs,
            recursiveLookup_nil es kw path n, rfl, rfl, rfl, List.prefix_rfl⟩
      · have hsf : HasSuffix key sep = false := by simpa using hs
        rw [recursiveLookup_leaf es kw path key keys n hsf] at h
        rcases hrest : recursiveLookup es kw n path keys with _ | t
        · rw [hrest] at h; simp at h
        rw [hrest] at h
        simp only [Option.map_some', Option.some.injEq] at h
        subst h
        obtain ⟨pre, k2, post, rp, p, hk, hs2, hpre, hrp, hkeys, hlast, hp⟩ :=
          ih path keys t e hrest hr
        refine ⟨key :: pre, k2, post, rp.shift (ownMatch kw path key) [], p,
          by rw [hk]; rfl, hs2, ?_, hrp, ?_, ?_, hp⟩
        · rw [recursiveLookup_leaf es kw path key pre n hsf, hpre]
          rfl
        · simp only [LookupResult.shift, hkeys, List.append_assoc]
        · simpa [LookupResult.shift] using hlast

/-- C3 as stated fails when the root listing fails while returning entries:
`Search` returns the entry `x` of the failing call with the error, whereas
with that listing empty instead it returns no key. -/
theorem C3_counterexample_root_entries_returned :
    ∃ r r2, Search storeRootFails "foo".toList 1 = some r ∧ r.err ≠ none ∧
      r.calls.getLast? = some sep ∧
      Search (emptyAt storeRootFails sep) "foo".toList 1 = some r2 ∧
      ¬ r.keys <+: r2.keys :=
  ⟨⟨["x".toList], some "sealed", [sep]⟩, ⟨[], none, [sep]⟩, by decide, by decide, by decide,
    by decide, by decide⟩

/-- When `Search` returns an error, the last listing call made is the failing
one, and the keys returned open the keys returned once that listing is empty. -/
theorem search_partial_prefix {E : Type} (es : Lister E) (kw : GoString) (n m : Nat)
    (r r2 : LookupResult E) (p : GoString)
    (hroot : (es sep).2 ≠ none → (es sep).1 = [])
    (h : Search es kw n = some r) (herr : r.err ≠ none)
    (hp : r.calls.getLast? = some p)
    (h2 : Search (emptyAt es p) kw m = some r2) :
    (es p).2 = r.err ∧ r.keys <+: r2.keys := by
  rcases hes : es sep with ⟨keys, _ | e⟩
  · unfold Search at h
    rw [hes] at h
    simp only [] at h
    rcases hrec : recursiveLookup es kw n sep keys with _ | s
    · rw [hrec] at h; simp at h
    rw [hrec] at h
    simp only [Option.some.injEq] at h
    subst h
    simp only [] at herr hp ⊢
    obtain ⟨e, he⟩ : ∃ e, s.err = some e := Option.ne_none_iff_exists'.mp herr
    obtain ⟨q, hq, hqe⟩ := last_call_fails es kw n sep keys s e hrec he
    have hpq : p = q := by
      rw [← List.singleton_append, List.getLast?_append, hq] at hp
      simpa using hp.symm
    subst hpq
    have hag : ∀ q, (es q).2 = none → emptyAt es p q = es q := by
      intro q hqn
      unfold emptyAt
      rw [if_neg]
      intro hqp
      rw [hqp, hqe] at hqn
      simp at hqn
    have hroot2 : emptyAt es p sep = (keys, none) := by
      rw [hag sep (by rw [hes]), hes]
    unfold Search at h2
    rw [hroot2] at h2
    simp only [] at h2
    rcases hrec2 : recursiveLookup (emptyAt es p) kw m sep keys with _ | s2
    · rw [hrec2] at h2; simp at h2
    rw [hrec2] at h2
    simp only [Option.some.injEq] at h2
    subst h2
    exact ⟨by rw [hqe, he],
      (lookup_prefix_of_agree es (emptyAt es p) kw hag n m sep keys s s2 hrec hrec2).2⟩
  · have he : (es sep).2 = some e := by rw [hes]
    rw [search_root_fails es kw n e he] at h
    simp only [Option.some.injEq] at h
    subst h
    simp only [List.getLast?_singleton, Option.some.injEq] at hp
    subst hp
    refine ⟨he, ?_⟩
    simp only []
    rw [hroot (by rw [he]; simp)]
    exact List.nil_prefix

theorem search_det {E : Type} (es : Lister E) (kw : GoString) (n m : Nat)
    (r r2 : LookupResult E) (h : Search es kw n = some r) (h2 : Search es kw m = some r2) :
    r = r2 := by
  have h3 := search_mono es kw r n (max n m) (le_max_left _ _) h
  have h4 := search_mono es kw r2 m (max n m) (le_max_right _ _) h2
  rw [h3] at h4
  exact Option.some.inj h4

/-- C3, amended: for a lister whose root listing, if it fails, returns no
entries, when `Search` returns an error the last listing call made is the
failing one, and the keys returned with the error hold nothing found inside
the failing folder or after it.  They are a prefix of the keys that `Search`
returns once that listing is replaced by an empty one.  They are none when the
root listing failed; otherwise they are the keys of the root entries before
the root folder entry at or below which the listing failed, looked up without
error, followed by the own match of that folder entry.  And on a finite
hierarchy they are, in order, among the matching entries reached in pre-order
up to the failing folder entry. -/
theorem C3_partial_keys_are_a_prefix {E : Type} (es : Lister E) (kw : GoString) (n : Nat)
    (r : LookupResult E) (p : GoString)
    (hroot : (es sep).2 ≠ none → (es sep).1 = [])
    (h : Search es kw n = some r) (herr : r.err ≠ none)
    (hp : r.calls.getLast? = some p) :
    (es p).2 = r.err ∧
    (∀ m r2, Search (emptyAt es p) kw m = some r2 → r.keys <+: r2.keys) ∧
    ((es sep).2 ≠ none → r.keys = []) ∧
    ((es sep).2 = none →
      ∃ pre key post rp, (es sep).1 = pre ++ key :: post ∧ HasSuffix key sep = true ∧
        recursiveLookup es kw n sep pre = some rp ∧ rp.err = none ∧
        r.keys = rp.keys ++ ownMatch kw sep key ∧ sep ++ key <+: p) ∧
    (∀ t, DescribesStore es (.listed t) →
      List.Sublist r.keys (t.visitedMatchingPaths kw sep)) := by
  have hfirst : ∀ m r2, Search (emptyAt es p) kw m = some r2 →
      (es p).2 = r.err ∧ r.keys <+: r2.keys :=
    fun m r2 h2 => search_partial_prefix es kw n m r r2 p hroot h herr hp h2
  obtain ⟨e, he⟩ : ∃ e, r.err = some e := Option.ne_none_iff_exists'.mp herr
  refine ⟨?_, fun m r2 h2 => (hfirst m r2 h2).2, ?_, ?_, ?_⟩
  · rcases hes : (es sep).2 with _ | e2
    · unfold Search at h
      rcases hes2 : es sep with ⟨keys, _ | e3⟩
      · rw [hes2] at h
        simp only [] at h
        rcases hrec : recursiveLookup es kw n sep keys with _ | s
        · rw [hrec] at h; simp at h
        rw [hrec] at h
        simp only [Option.some.injEq] at h
        subst h
        simp only [] at he hp ⊢
        obtain ⟨q, hq, hqe⟩ := last_call_fails es kw n sep keys s e hrec he
        rw [← List.singleton_append, List.getLast?_append, hq] at hp
        simp only [Option.or_some, Option.some.injEq] at hp
        rw [← hp, hqe, he]
      · rw [hes2] at hes; simp at hes
    · rw [search_root_fails es kw n e2 hes] at h
      simp only [Option.some.injEq] at h
      subst h
      simp only [List.getLast?_singleton, Option.some.injEq] at hp
      rw [← hp, hes]
  · intro hfail
    obtain ⟨e2, he2⟩ := Option.ne_none_iff_exists'.mp hfail
    rw [search_root_fails es kw n e2 he2] at h
    simp only [Option.some.injEq] at h
    subst h
    exact hroot hfail
  · intro hok
    unfold Search at h
    rcases hes2 : es sep with ⟨keys, _ | e3⟩
    · rw [hes2] at h
      simp only [] at h
      rcases hrec : recursiveLookup es kw n sep keys with _ | s
      · rw [hrec] at h; simp at h
      rw [hrec] at h
      simp only [Option.some.injEq] at h
      subst h
      simp only [] at he hp ⊢
      obtain ⟨pre, key, post, rp, q, hk, hs, hpre, hrp, hkeys, hlast, hq⟩ :=
        lookup_fail_split es kw n sep keys s e hrec he
      rw [← List.singleton_append, List.getLast?_append, hlast] at hp
      simp only [Option.or_some, Option.some.injEq] at hp
      rw [← hp]
      exact ⟨pre, key, post, rp, hk, hs, hpre, hrp, hkeys, hq⟩
    · rw [hes2] at hok; simp at hok
  · intro t hd
    have hw := search_of_describes es kw t (t.size + 1) hd (by omega)
    rw [search_det es kw n (t.size + 1) r _ h hw]
    exact walk_keys_sublist_visited kw t sep

/-- C3, on a store where the listing of `/a/b/` fails after the entries `c/`,
`a/`, `foo` and `b/` were reached and before the leaf `z`, with the empty
keyword, which every entry matches: the keys returned with the error are
`/c/`, `/a/`; they open the keys returned once `/a/b/` lists empty, stem from
the root entries `c/` and `a/`, and are among the four entries reached, of
which `/z` is none. -/
theorem C3_witness_failing_folder :
    ((storeFailing sep).2 ≠ none → (storeFailing sep).1 = []) ∧
    Search storeFailing [] 6
      = some ⟨["/c/".toList, "/a/".toList], some "sealed",
          ["/".toList, "/c/".toList, "/a/".toList, "/a/b/".toList]⟩ ∧
    (storeFailing "/a/b/".toList).2 = some "sealed" ∧
    (∀ m r2, Search (emptyAt storeFailing "/a/b/".toList) [] m = some r2 →
      ["/c/".toList, "/a/".toList] <+: r2.keys) ∧
    Search (emptyAt storeFailing "/a/b/".toList) [] 6
      = some ⟨["/c/".toList, "/a/".toList, "/a/foo".toList, "/a/b/".toList, "/z".toList],
          none, ["/".toList, "/c/".toList, "/a/".toList, "/a/b/".toList]⟩ ∧
    (∃ pre key post rp, (storeFailing sep).1 = pre ++ key :: post ∧
      HasSuffix key sep = true ∧ recursiveLookup storeFailing [] 6 sep pre = some rp ∧
      rp.err = none ∧ ["/c/".toList, "/a/".toList] = rp.keys ++ ownMatch [] sep key ∧
      sep ++ key <+: "/a/b/".toList) ∧
    List.Sublist ["/c/".toList, "/a/".toList]
      ["/c/".toList, "/a/".toList, "/a/foo".toList, "/a/b/".toList] ∧
    treeFailing.visitedMatchingPaths [] sep
      = ["/c/".toList, "/a/".toList, "/a/foo".toList, "/a/b/".toList] :=
  have hC3 := C3_partial_keys_are_a_prefix storeFailing [] 6
    ⟨["/c/".toList, "/a/".toList], some "sealed",
      ["/".toList, "/c/".toList, "/a/".toList, "/a/b/".toList]⟩
    "/a/b/".toList (by decide) (by decide) (by decide) (by decide)
  ⟨by decide, by decide, hC3.1, hC3.2.1, by decide, hC3.2.2.2.1 (by decide),
    hC3.2.2.2.2 treeFailing describes_storeFailing, by decide⟩

/-! ## The keyword field of the handler -/

theorem sep_elem_self : sep.elem '/' = true := by decide

theorem trimRight_append_seps (s : GoString) (b : Nat) :
    TrimRight (s ++ List.replicate b '/') sep = TrimRight s sep := by
  simp only [TrimRight, List.reverse_append, List.reverse_replicate]
  rw [List.dropWhile_append_of_pos]
  intro c hc
  rw [(List.mem_replicate.mp hc).2]
  exact sep_elem_self

theorem dropWhile_sep_cons (l : GoString) :
    List.dropWhile (fun c => sep.elem c) ('/' :: l) = List.dropWhile (fun c => sep.elem c) l :=
  List.dropWhile_cons_of_pos (p := fun c => sep.elem c) (a := '/') sep_elem_self

theorem trim_cons_sep (s : GoString) : Trim ('/' :: s) sep = Trim s sep := by
  simp only [Trim, TrimLeft, TrimRight, List.reverse_cons, List.dropWhile_append]
  by_cases h : (List.dropWhile (fun c => sep.elem c) s.reverse).isEmpty = true
  · have h2 : List.dropWhile (fun c => sep.elem c) s.reverse = [] := by
      simpa using h
    rw [if_pos h, h2, dropWhile_sep_cons]
    rfl
  · rw [if_neg h, List.reverse_append, List.reverse_singleton, List.singleton_append,
      dropWhile_sep_cons]

theorem trim_padded (k : GoString) (a b : Nat) :
    Trim (List.replicate a '/' ++ k ++ List.replicate b '/') sep = Trim k sep := by
  induction a with
  | zero =>
    simp only [List.replicate_zero, List.nil_append, Trim, trimRight_append_seps]
  | succ a ih =>
    rw [List.replicate_succ, List.cons_append, List.cons_append, trim_cons_sep, ih]

/-- C11: the handler searches for the keyword field trimmed of separators at
both ends, so any number of `/` added at the two ends of the field leaves the
value it returns unchanged (and so does their removal, read from right to
left); a field made of separators only is searched as the empty keyword, which
every entry matches. -/
theorem C11_handler_trims_keyword {E : Type} (es : Lister E) (fuel : Nat) (k : GoString)
    (a b : Nat) :
    pathSearchListRecursive es fuel (List.replicate a '/' ++ k ++ List.replicate b '/')
      = pathSearchListRecursive es fuel k ∧
    pathSearchListRecursive es fuel k = Search es (Trim k sep) fuel ∧
    pathSearchListRecursive es fuel (List.replicate a '/') = Search es [] fuel ∧
    ∀ entry : GoString,
      Contains (Trim entry sep) (Trim (List.replicate a '/') sep) = true := by
  have hnil : Trim (List.replicate a '/') sep = [] := by
    have := trim_padded [] a 0
    simpa using this
  refine ⟨?_, rfl, ?_, fun entry => ?_⟩
  · simp only [pathSearchListRecursive, trim_padded]
  · simp only [pathSearchListRecursive, hnil]
  · rw [hnil]; exact contains_nil _

/-! ## Failure of the root listing -/

/-- C12 as stated fails when the failing root listing returns entries: the
handler returns the entry `x` of that call with the error. -/
theorem C12_counterexample_root_entries_kept :
    ∃ r, pathSearchListRecursive storeRootFails 0 "foo".toList = some r ∧
      r.err = some "sealed" ∧ r.keys ≠ [] :=
  ⟨⟨["x".toList], some "sealed", [sep]⟩, by decide, rfl, by decide⟩

/-- C12, amended: when the listing of the root `"/"` fails, the handler
returns that error together with the entries which the failing call itself
returned (none if it returned none), whatever the budget, zero included:
`recursiveLookup` is not run and the root listing is the only listing call. -/
theorem C12_root_failure_returns_at_once {E : Type} (es : Lister E) (fuel : Nat)
    (k : GoString) (e : E) (hroot : (es sep).2 = some e) :
    pathSearchListRecursive es fuel k = some ⟨(es sep).1, some e, [sep]⟩ ∧
    ((es sep).1 = [] → pathSearchListRecursive es fuel k = some ⟨[], some e, [sep]⟩) := by
  have h := search_root_fails es (Trim k sep) fuel e hroot
  refine ⟨h, fun hnil => ?_⟩
  rw [pathSearchListRecursive, h, hnil]

/-- C12, on a store whose root listing fails without entries below a folder
that would otherwise be traversed. -/
theorem C12_witness_root_sealed :
    (storeRootSealed sep).2 = some "sealed" ∧
    pathSearchListRecursive storeRootSealed 0 "foo".toList
      = some ⟨[], some "sealed", ["/".toList]⟩ :=
  ⟨rfl,
    (C12_root_failure_returns_at_once storeRootSealed 0 "foo".toList "sealed" rfl).1⟩

/-- C11, on the store holding only `a/b/foo`: the field `//foo/` is searched as `foo`. -/
theorem C11_witness_padded_foo :
    pathSearchListRecursive storeABFoo 4 "//foo/".toList
      = pathSearchListRecursive storeABFoo 4 "foo".toList ∧
    pathSearchListRecursive storeABFoo 4 "//foo/".toList
      = some ⟨["/a/b/foo".toList], none, ["/".toList, "/a/".toList, "/a/b/".toList]⟩ :=
  ⟨(C11_handler_trims_keyword storeABFoo 4 "foo".toList 2 1).1, by decide⟩

/-! ## The keyword does not steer the traversal -/

theorem map_trace_eq {E : Type} {a b : Option (LookupResult E)}
    (h : a.map LookupResult.trace = b.map LookupResult.trace) :
    (a = none ∧ b = none) ∨
      ∃ r s, a = some r ∧ b = some s ∧ r.err = s.err ∧ r.calls = s.calls := by
  rcases a with _ | r <;> rcases b with _ | s
  · exact Or.inl ⟨rfl, rfl⟩
  · simp at h
  · simp at h
  · simp only [Option.map_some', Option.some.injEq, LookupResult.trace, Prod.mk.injEq] at h
    exact Or.inr ⟨r, s, rfl, rfl, h.1, h.2⟩

/-- The error and the listing calls of a lookup do not depend on the keyword. -/
theorem lookup_trace_independent {E : Type} (es : Lister E) (k1 k2 : GoString) :
    ∀ (fuel : Nat) (path : GoString) (keys : List GoString),
      (recursiveLookup es k1 fuel path keys).map LookupResult.trace
        = (recursiveLookup es k2 fuel path keys).map LookupResult.trace := by
  intro fuel
  induction fuel with
  | zero => intro path keys; simp [recursiveLookup_zero]
  | succ n ih =>
    intro path keys
    cases keys with
    | nil => simp [recursiveLookup_nil, LookupResult.trace]
    | cons key keys =>
      by_cases hs : HasSuffix key sep = true
      · rcases hes : es (path ++ key) with ⟨sub, _ | e⟩
        · rcases map_trace_eq (ih (path ++ key) sub) with ⟨h1, h2⟩ | ⟨s1, s2, h1, h2, he, hc⟩
          · rw [recursiveLookup_subNone es k1 path key keys sub n hs hes h1,
              recursiveLookup_subNone es k2 path key keys sub n hs hes h2]
          · rcases herr : s1.err with _ | e
            · rw [recursiveLookup_subOk es k1 path key keys sub n s1 hs hes h1 herr,
                recursiveLookup_subOk es k2 path key keys sub n s2 hs hes h2 (he ▸ herr)]
              rcases map_trace_eq (ih path keys) with ⟨h3, h4⟩ | ⟨t1, t2, h3, h4, he2, hc2⟩
              · rw [h3, h4]; rfl
              · rw [h3, h4]
                simp [LookupResult.trace, LookupResult.shift, he2, hc2, hc]
            · rw [recursiveLookup_subFails es k1 path key keys sub n s1 e hs hes h1 herr,
                recursiveLookup_subFails es k2 path key keys sub n s2 e hs hes h2 (he ▸ herr)]
              simp [LookupResult.trace, hc]
        · have he : (es (path ++ key)).2 = some e := by rw [hes]
          rw [recursiveLookup_listFails es k1 path key keys n e hs he,
            recursiveLookup_listFails es k2 path key keys n e hs he]
          rfl
      · have hsf : HasSuffix key sep = false := by simpa using hs
        rw [recursiveLookup_leaf es k1 path key keys n hsf,
          recursiveLookup_leaf es k2 path key keys n hsf]
        rcases map_trace_eq (ih path keys) with ⟨h3, h4⟩ | ⟨t1, t2, h3, h4, he2, hc2⟩
        · rw [h3, h4]; rfl
        · rw [h3, h4]
          simp [LookupResult.trace, LookupResult.shift, he2, hc2]

theorem search_trace_independent {E : Type} (es : Lister E) (k1 k2 : GoString) (fuel : Nat) :
    (Search es k1 fuel).map LookupResult.trace = (Search es k2 fuel).map LookupResult.trace := by
  unfold Search
  rcases hes : es sep with ⟨keys, _ | e⟩
  · simp only []
    rcases map_trace_eq (lookup_trace_independent es k1 k2 fuel sep keys) with
      ⟨h1, h2⟩ | ⟨r, s, h1, h2, he, hc⟩
    · rw [h1, h2]
    · rw [h1, h2]
      simp [LookupResult.trace, he, hc]
  · rfl

/-- C15: for every lister, budget and two keywords, the two searches return
together or not at all, with the same error (or none) and the same sequence of
listing calls; the keyword only selects the keys. -/
theorem C15_keyword_does_not_change_traversal {E : Type} (es : Lister E) (k1 k2 : GoString)
    (fuel : Nat) :
    (Search es k1 fuel).map LookupResult.trace = (Search es k2 fuel).map LookupResult.trace ∧
    (∀ r1, Search es k1 fuel = some r1 →
      ∃ r2, Search es k2 fuel = some r2 ∧ r2.err = r1.err ∧ r2.calls = r1.calls) := by
  refine ⟨search_trace_independent es k1 k2 fuel, fun r1 h1 => ?_⟩
  rcases map_trace_eq (search_trace_independent es k1 k2 fuel) with
    ⟨hn, _⟩ | ⟨r, s, hr, hs, he, hc⟩
  · rw [hn] at h1; simp at h1
  · rw [h1] at hr
    simp only [Option.some.injEq] at hr
    subst hr
    exact ⟨s, hs, he.symm, hc.symm⟩

/-- C15, on the store whose listing of `/a/b/` fails: the keywords `foo` and
`zzz` give the same error after the same calls. -/
theorem C15_witness_same_trace :
    (Search storeFailing "foo".toList 6).map LookupResult.trace
      = (Search storeFailing "zzz".toList 6).map LookupResult.trace ∧
    (Search storeFailing "zzz".toList 6).map LookupResult.trace
      = some (some "sealed", ["/".toList, "/c/".toList, "/a/".toList, "/a/b/".toList]) :=
  ⟨(C15_keyword_does_not_change_traversal storeFailing "foo".toList "zzz".toList 6).1,
    by decide⟩

/-! ## A longer keyword selects fewer keys -/

theorem contains_iff_occurs (s sub : GoString) : Contains s sub = true ↔ sub <:+: s := by
  induction s with
  | nil => simp [Contains, List.infix_nil]
  | cons c s ih =>
    simp only [Contains, Bool.or_eq_true, ih, HasPrefix, List.isPrefixOf_iff_prefix,
      List.infix_cons_iff]

theorem contains_trans (s k1 k2 : GoString) (h12 : Contains k2 k1 = true)
    (h : Contains s k2 = true) : Contains s k1 = true := by
  rw [contains_iff_occurs] at h12 h ⊢
  exact h12.trans h

theorem ownMatch_sublist (k1 k2 path key : GoString) (h12 : Contains k2 k1 = true) :
    List.Sublist (ownMatch k2 path key) (ownMatch k1 path key) := by
  unfold ownMatch
  by_cases h : Contains (Trim key sep) k2 = true
  · rw [if_pos h, if_pos (contains_trans _ k1 k2 h12 h)]
  · rw [if_neg h]
    exact List.nil_sublist _

/-- With a keyword that occurs in the other, the keys of a lookup for the
longer keyword are a sublist of those for the shorter one. -/
theorem lookup_keys_sublist {E : Type} (es : Lister E) (k1 k2 : GoString)
    (h12 : Contains k2 k1 = true) :
    ∀ (fuel : Nat) (path : GoString) (keys : List GoString) (r1 r2 : LookupResult E),
      recursiveLookup es k1 fuel path keys = some r1 →
      recursiveLookup es k2 fuel path keys = some r2 → List.Sublist r2.keys r1.keys := by
  intro fuel
  induction fuel with
  | zero => intro path keys r1 r2 h; simp [recursiveLookup_zero] at h
  | succ n ih =>
    intro path keys r1 r2 h1 h2
    cases keys with
    | nil =>
      rw [recursiveLookup_nil] at h1 h2
      simp only [Option.some.injEq] at h1 h2
      subst h1; subst h2
      exact List.Sublist.refl _
    | cons key keys =>
      have hown := ownMatch_sublist k1 k2 path key h12
      by_cases hs : HasSuffix key sep = true
      · rcases hes : es (path ++ key) with ⟨sub, _ | e⟩
        · rcases map_trace_eq (lookup_trace_independent es k1 k2 n (path ++ key) sub) with
            ⟨hn1, _⟩ | ⟨s1, s2, hs1, hs2, he, _⟩
          · rw [recursiveLookup_subNone es k1 path key keys sub n hs hes hn1] at h1
            simp at h1
          · have hsub := ih _ _ s1 s2 hs1 hs2
            rcases herr : s1.err with _ | e
            · rw [recursiveLookup_subOk es k1 path key keys sub n s1 hs hes hs1 herr] at h1
              rw [recursiveLookup_subOk es k2 path key keys sub n s2 hs hes hs2
                (he ▸ herr)] at h2
              rcases hrest1 : recursiveLookup es k1 n path keys with _ | t1
              · rw [hrest1] at h1; simp at h1
              rcases hrest2 : recursiveLookup es k2 n path keys with _ | t2
              · rw [hrest2] at h2; simp at h2
              rw [hrest1] at h1
              rw [hrest2] at h2
              simp only [Option.map_some', Option.some.injEq] at h1 h2
              subst h1; subst h2
              exact (hown.append hsub).append (ih _ _ t1 t2 hrest1 hrest2)
            · rw [recursiveLookup_subFails es k1 path key keys sub n s1 e hs hes hs1 herr] at h1
              rw [recursiveLookup_subFails es k2 path key keys sub n s2 e hs hes hs2
                (he ▸ herr)] at h2
              simp only [Option.some.injEq] at h1 h2
              subst h1; subst h2
              exact hown
        · have he : (es (path ++ key)).2 = some e := by rw [hes]
          rw [recursiveLookup_listFails es k1 path key keys n e hs he] at h1
          rw [recursiveLookup_listFails es k2 path key keys n e hs he] at h2
          simp only [Option.some.injEq] at h1 h2
          subst h1; subst h2
          exact hown
      · have hsf : HasSuffix key sep = false := by simpa using hs
        rw [recursiveLookup_leaf es k1 path key keys n hsf] at h1
        rw [recursiveLookup_leaf es k2 path key keys n hsf] at h2
        rcases hrest1 : recursiveLookup es k1 n path keys with _ | t1
        · rw [hrest1] at h1; simp at h1
        rcases hrest2 : recursiveLookup es k2 n path keys with _ | t2
        · rw [hrest2] at h2; simp at h2
        rw [hrest1] at h1
        rw [hrest2] at h2
        simp only [Option.map_some', Option.some.injEq] at h1 h2
        subst h1; subst h2
        exact hown.append (ih _ _ t1 t2 hrest1 hrest2)

theorem search_keys_sublist {E : Type} (es : Lister E) (k1 k2 : GoString)
    (h12 : Contains k2 k1 = true) (fuel : Nat) (r1 : LookupResult E)
    (h1 : Search es k1 fuel = some r1) :
    ∃ r2, Search es k2 fuel = some r2 ∧ List.Sublist r2.keys r1.keys ∧ r2.err = r1.err := by
  unfold Search at h1 ⊢
  rcases hes : es sep with ⟨keys, _ | e⟩
  · rw [hes] at h1
    simp only [] at h1 ⊢
    rcases map_trace_eq (lookup_trace_independent es k1 k2 fuel sep keys) with
      ⟨hn1, _⟩ | ⟨s1, s2, hs1, hs2, he, _⟩
    · rw [hn1] at h1; simp at h1
    · rw [hs1] at h1
      simp only [Option.some.injEq] at h1
      subst h1
      rw [hs2]
      exact ⟨_, rfl, lookup_keys_sublist es k1 k2 h12 fuel sep keys s1 s2 hs1 hs2, he.symm⟩
  · rw [hes] at h1
    simp only [Option.some.injEq] at h1
    subst h1
    exact ⟨_, rfl, List.Sublist.refl _, rfl⟩

/-- C16: when the keyword `k1` occurs in the keyword `k2`, wherever the
search for `k1` returns, the search for `k2` returns too, with the same error
status, and its keys are a sublist, in the same order, of the keys for `k1`;
and the keys for `k1` are themselves a sublist of the keys for the empty
keyword. -/
theorem C16_longer_keyword_gives_sublist {E : Type} (es : Lister E) (k1 k2 : GoString)
    (fuel : Nat) (r1 : LookupResult E) (h12 : Contains k2 k1 = true)
    (h1 : Search es k1 fuel = some r1) :
    (∃ r2, Search es k2 fuel = some r2 ∧ List.Sublist r2.keys r1.keys ∧ r2.err = r1.err) ∧
    (∃ r0, Search es [] fuel = some r0 ∧ List.Sublist r1.keys r0.keys ∧ r0.err = r1.err) := by
  refine ⟨search_keys_sublist es k1 k2 h12 fuel r1 h1, ?_⟩
  rcases map_trace_eq (search_trace_independent es k1 [] fuel) with ⟨hn1, _⟩ | ⟨s1, s0, hs1, hs0, he, _⟩
  · rw [hn1] at h1; simp at h1
  · rw [h1] at hs1
    simp only [Option.some.injEq] at hs1
    subst hs1
    obtain ⟨r, hr, hsubl, _⟩ := search_keys_sublist es [] k1 (contains_nil k1) fuel s0 hs0
    rw [h1] at hr
    simp only [Option.some.injEq] at hr
    subst hr
    exact ⟨s0, hs0, hsubl, he.symm⟩

/-- C16, on the store whose listing of `/a/b/` fails: the keys for the keyword
`a` are a sublist of the keys `/c/`, `/a/` for the empty keyword, with the same error. -/
theorem C16_witness_keyword_a :
    Contains "a".toList [] = true ∧
    Search storeFailing [] 6
      = some ⟨["/c/".toList, "/a/".toList], some "sealed",
          ["/".toList, "/c/".toList, "/a/".toList, "/a/b/".toList]⟩ ∧
    ∃ r2, Search storeFailing "a".toList 6 = some r2 ∧
      List.Sublist r2.keys ["/c/".toList, "/a/".toList] ∧ r2.err = some "sealed" :=
  ⟨by decide, by decide,
    (C16_longer_keyword_gives_sublist storeFailing [] "a".toList 6
      ⟨["/c/".toList, "/a/".toList], some "sealed",
        ["/".toList, "/c/".toList, "/a/".toList, "/a/b/".toList]⟩ (by decide) (by decide)).1⟩

/-! ## Concatenation of the entry list -/

/-- A lookup that fails on `xs` fails the same way on `xs ++ ys`, with the same budget. -/
theorem lookup_append_fail {E : Type} (es : Lister E) (kw : GoString) (ys : List GoString) :
    ∀ (n : Nat) (path : GoString) (xs : List GoString) (rx : LookupResult E) (e : E),
      recursiveLookup es kw n path xs = some rx → rx.err = some e →
      recursiveLookup es kw n path (xs ++ ys) = some rx := by
  intro n
  induction n with
  | zero => intro path xs rx e h; simp [recursiveLookup_zero] at h
  | succ n ih =>
    intro path xs rx e h hr
    cases xs with
    | nil =>
      rw [recursiveLookup_nil] at h
      simp only [Option.some.injEq] at h
      subst h
      simp at hr
    | cons key xs =>
      rw [List.cons_append]
      by_cases hs : HasSuffix key sep = true
      · rcases hes : es (path ++ key) with ⟨sub, _ | e2⟩
        · rcases hsub : recursiveLookup es kw n (path ++ key) sub with _ | s
          · rw [recursiveLookup_subNone es kw path key xs sub n hs hes hsub] at h
            simp at h
          rcases herr : s.err with _ | e3
          · rw [recursiveLookup_subOk es kw path key xs sub n s hs hes hsub herr] at h
            rw [recursiveLookup_subOk es kw path key (xs ++ ys) sub n s hs hes hsub herr]
            rcases hrest : recursiveLookup es kw n path xs with _ | t
            · rw [hrest] at h; simp at h
            rw [hrest] at h
            simp only [Option.map_some', Option.some.injEq] at h
            subst h
            rw [ih path xs t e hrest hr]
            rfl
          · rw [recursiveLookup_subFails es kw path key xs sub n s e3 hs hes hsub herr] at h
            rw [recursiveLookup_subFails es kw path key (xs ++ ys) sub n s e3 hs hes hsub herr]
            exact h
        · have he : (es (path ++ key)).2 = some e2 := by rw [hes]
          rw [recursiveLookup_listFails es kw path key xs n e2 hs he] at h
          rw [recursiveLookup_listFails es kw path key (xs ++ ys) n e2 hs he]
          exact h
      · have hsf : HasSuffix key sep = false := by simpa using hs
        rw [recursiveLookup_leaf es kw path key xs n hsf] at h
        rw [recursiveLookup_leaf es kw path key (xs ++ ys) n hsf]
        rcases hrest : recursiveLookup es kw n path xs with _ | t
        · rw [hrest] at h; simp at h
        rw [hrest] at h
        simp only [Option.map_some', Option.some.injEq] at h
        subst h
        rw [ih path xs t e hrest hr]
        rfl

theorem shift_nil {E : Type} (r : LookupResult E) : r.shift [] [] = r := by
  cases r; simp [LookupResult.shift]

theorem shift_shift {E : Type} (r : LookupResult E) (a b c d : List GoString) :
    (r.shift a b).shift c d = r.shift (c ++ a) (d ++ b) := by
  simp [LookupResult.shift]

/-- A lookup that succeeds on `xs` goes on with `ys`: the budgets add up. -/
theorem lookup_append_ok {E : Type} (es : Lister E) (kw : GoString) (ys : List GoString)
    (m : Nat) (path : GoString) (ry : LookupResult E)
    (hy : recursiveLookup es kw m path ys = some ry) :
    ∀ (n : Nat) (xs : List GoString) (rx : LookupResult E),
      recursiveLookup es kw n path xs = some rx → rx.err = none →
      recursiveLookup es kw (n + m) path (xs ++ ys) = some (ry.shift rx.keys rx.calls) := by
  intro n
  induction n with
  | zero => intro xs rx h; simp [recursiveLookup_zero] at h
  | succ n ih =>
    intro xs rx h hr
    have hfuel : n + 1 + m = (n + m) + 1 := by omega
    cases xs with
    | nil =>
      rw [recursiveLookup_nil] at h
      simp only [Option.some.injEq] at h
      subst h
      rw [List.nil_append, shift_nil]
      exact recursiveLookup_mono es kw path ys ry m _ (by omega) hy
    | cons key xs =>
      rw [List.cons_append, hfuel]
      by_cases hs : HasSuffix key sep = true
      · rcases hes : es (path ++ key) with ⟨sub, _ | e2⟩
        · rcases hsub : recursiveLookup es kw n (path ++ key) sub with _ | s
          · rw [recursiveLookup_subNone es kw path key xs sub n hs hes hsub] at h
            simp at h
          rcases herr : s.err with _ | e3
          · rw [recursiveLookup_subOk es kw path key xs sub n s hs hes hsub herr] at h
            rw [recursiveLookup_subOk es kw path key (xs ++ ys) sub (n + m) s hs hes
              (recursiveLookup_mono es kw _ sub s n _ (by omega) hsub) herr]
            rcases hrest : recursiveLookup es kw n path xs with _ | t
            · rw [hrest] at h; simp at h
            rw [hrest] at h
            simp only [Option.map_some', Option.some.injEq] at h
            subst h
            rw [ih xs t hrest hr, Option.map_some', shift_shift]
            rfl
          · rw [recursiveLookup_subFails es kw path key xs sub n s e3 hs hes hsub herr] at h
            simp only [Option.some.injEq] at h
            subst h
            simp at hr
        · have he : (es (path ++ key)).2 = some e2 := by rw [hes]
          rw [recursiveLookup_listFails es kw path key xs n e2 hs he] at h
          simp only [Option.some.injEq] at h
          subst h
          simp at hr
      · have hsf : HasSuffix key sep = false := by simpa using hs
        rw [recursiveLookup_leaf es kw path key xs n hsf] at h
        rw [recursiveLookup_leaf es kw path key (xs ++ ys) (n + m) hsf]
        rcases hrest : recursiveLookup es kw n path xs with _ | t
        · rw [hrest] at h; simp at h
        rw [hrest] at h
        simp only [Option.map_some', Option.some.injEq] at h
        subst h
        rw [ih xs t hrest hr, Option.map_some', shift_shift]
        rfl

/-- C17: `recursiveLookup` distributes over the concatenation of the entry
list.  If it returns on `xs` without error, then on `xs ++ ys` it returns, for
every budget from some bound on, the keys (and calls) of `xs` followed by
those of `ys`, with the error status of `ys`; if it returns on `xs` with an
error, it returns the very same on `xs ++ ys`. -/
theorem C17_lookup_distributes_over_append {E : Type} (es : Lister E) (kw path : GoString)
    (xs ys : List GoString) (n : Nat) (rx : LookupResult E)
    (hx : recursiveLookup es kw n path xs = some rx) :
    (rx.err = none → ∀ m ry, recursiveLookup es kw m path ys = some ry →
      ∃ N, ∀ fuel, N ≤ fuel →
        recursiveLookup es kw fuel path (xs ++ ys)
          = some ⟨rx.keys ++ ry.keys, ry.err, rx.calls ++ ry.calls⟩) ∧
    (rx.err ≠ none → ∀ fuel, n ≤ fuel →
      recursiveLookup es kw fuel path (xs ++ ys) = some rx) := by
  constructor
  · intro hr m ry hy
    exact ⟨n + m, fun fuel hf =>
      recursiveLookup_mono es kw path (xs ++ ys) _ (n + m) fuel hf
        (lookup_append_ok es kw ys m path ry hy n xs rx hx hr)⟩
  · intro hr fuel hf
    obtain ⟨e, he⟩ := Option.ne_none_iff_exists'.mp hr
    exact recursiveLookup_mono es kw path (xs ++ ys) rx n fuel hf
      (lookup_append_fail es kw ys n path xs rx e hx he)

/-- C17, below the root of the store whose listing of `/a/b/` fails: the
entries `c/` then `a/`, `z`; and `c/`, `a/` then `z`, where `z` is not reached. -/
theorem C17_witness_split_root :
    recursiveLookup storeFailing [] 2 "/".toList ["c/".toList]
      = some ⟨["/c/".toList], none, ["/c/".toList]⟩ ∧
    (∃ N, ∀ fuel, N ≤ fuel →
      recursiveLookup storeFailing [] fuel "/".toList
          (["c/".toList] ++ ["a/".toList, "z".toList])
        = some ⟨["/c/".toList] ++ ["/a/".toList], some "sealed",
            ["/c/".toList] ++ ["/a/".toList, "/a/b/".toList]⟩) :=
  ⟨by decide,
    (C17_lookup_distributes_over_append storeFailing [] "/".toList ["c/".toList]
      ["a/".toList, "z".toList] 2 ⟨["/c/".toList], none, ["/c/".toList]⟩ (by decide)).1 rfl 4
      ⟨["/a/".toList], some "sealed", ["/a/".toList, "/a/b/".toList]⟩ (by decide)⟩

/-! ## The sequence of listing calls -/

theorem throughFirstFailure_append_of_ok (a b : List (GoString × Bool))
    (h : ∀ x ∈ a, x.2 = false) :
    throughFirstFailure (a ++ b) = throughFirstFailure a ++ throughFirstFailure b := by
  induction a with
  | nil => rfl
  | cons x a ih =>
    obtain ⟨p, f⟩ := x
    have hf : f = false := h (p, f) (List.mem_cons_self _ _)
    subst hf
    exact congrArg (fun l => p :: l) (ih (fun x hx => h x (List.mem_cons_of_mem _ hx)))

theorem throughFirstFailure_append_of_failure (a b : List (GoString × Bool))
    (h : ∃ x ∈ a, x.2 = true) : throughFirstFailure (a ++ b) = throughFirstFailure a := by
  induction a with
  | nil => obtain ⟨x, hx, _⟩ := h; simp at hx
  | cons x a ih =>
    obtain ⟨p, f⟩ := x
    cases f with
    | true => rfl
    | false =>
      refine congrArg (fun l => p :: l) (ih ?_)
      obtain ⟨y, hy, hyf⟩ := h
      simp only [List.mem_cons] at hy
      rcases hy with hy | hy
      · rw [hy] at hyf; simp at hyf
      · exact ⟨y, hy, hyf⟩

/-- Whether the folder paths of a hierarchy hold a failing one, by its first failure. -/
theorem folderPaths_failure {E : Type} :
    ∀ (t : Listing E) (path : GoString),
      (t.firstFailure = none → ∀ x ∈ t.folderPaths path, x.2 = false) ∧
      (t.firstFailure ≠ none → ∃ x ∈ t.folderPaths path, x.2 = true) := by
  intro t
  induction t with
  | nil => intro path; simp [Listing.firstFailure, Listing.folderPaths]
  | leaf name rest ih => intro path; exact ih path
  | folder name sub rest ihs ihr =>
    intro path
    simp only [Listing.firstFailure, Listing.folderPaths]
    rcases hf : sub.firstFailure with _ | e
    · simp only []
      constructor
      · intro hr x hx
        simp only [List.mem_cons, List.mem_append] at hx
        rcases hx with hx | hx | hx
        · rw [hx]
        · exact (ihs (path ++ name)).1 hf x hx
        · exact (ihr path).1 hr x hx
      · intro hr
        obtain ⟨x, hx, hxf⟩ := (ihr path).2 hr
        exact ⟨x, by simp [hx], hxf⟩
    · simp only []
      constructor
      · intro h; simp at h
      · intro _
        obtain ⟨x, hx, hxf⟩ := (ihs (path ++ name)).2 (by rw [hf]; simp)
        exact ⟨x, by simp [hx], hxf⟩
  | failing name err rest _ =>
    intro path
    simp [Listing.firstFailure, Listing.folderPaths]

/-- The calls of the run read off a hierarchy are its folder paths in
pre-order, cut after the first failing one. -/
theorem walk_calls {E : Type} (kw : GoString) :
    ∀ (t : Listing E) (path : GoString),
      (t.walk kw path).calls = throughFirstFailure (t.folderPaths path) := by
  intro t
  induction t with
  | nil => intro path; rfl
  | leaf name rest ih =>
    intro path
    simp only [Listing.walk, LookupResult.shift, List.nil_append, Listing.folderPaths, ih]
  | folder name sub rest ihs ihr =>
    intro path
    have herr := walk_err kw sub (path ++ name)
    simp only [Listing.walk, Listing.folderPaths, throughFirstFailure]
    rcases hf : sub.firstFailure with _ | e
    · rw [hf] at herr
      rw [herr, throughFirstFailure_append_of_ok _ _ ((folderPaths_failure sub _).1 hf)]
      simp only [LookupResult.shift, ihs, ihr, List.cons_append]
    · rw [hf] at herr
      rw [herr, throughFirstFailure_append_of_failure _ _
        ((folderPaths_failure sub _).2 (by rw [hf]; simp))]
      simp only [ihs]
  | failing name err rest _ => intro path; rfl

/-- The listing calls of a lookup, but possibly the last, all succeed, and
all do when no error is returned. -/
theorem calls_shape {E : Type} (es : Lister E) (kw : GoString) :
    ∀ (fuel : Nat) (path : GoString) (keys : List GoString) (r : LookupResult E),
      recursiveLookup es kw fuel path keys = some r →
      (r.err = none → ∀ p ∈ r.calls, (es p).2 = none) ∧
      (∀ e, r.err = some e →
        ∃ l p, r.calls = l ++ [p] ∧ (∀ q ∈ l, (es q).2 = none) ∧ (es p).2 = some e) := by
  intro fuel
  induction fuel with
  | zero => intro path keys r h; simp [recursiveLookup_zero] at h
  | succ n ih =>
    intro path keys r h
    cases keys with
    | nil =>
      rw [recursiveLookup_nil] at h
      simp only [Option.some.injEq] at h
      subst h
      simp
    | cons key keys =>
      by_cases hs : HasSuffix key sep = true
      · rcases hes : es (path ++ key) with ⟨sub, _ | e2⟩
        · have hok : (es (path ++ key)).2 = none := by rw [hes]
          rcases hsub : recursiveLookup es kw n (path ++ key) sub with _ | s
          · rw [recursiveLookup_subNone es kw path key keys sub n hs hes hsub] at h
            simp at h
          obtain ⟨hs1, hs2⟩ := ih _ _ s hsub
          rcases herr : s.err with _ | e3
          · rw [recursiveLookup_subOk es kw path key keys sub n s hs hes hsub herr] at h
            rcases hrest : recursiveLookup es kw n path keys with _ | t
            · rw [hrest] at h; simp at h
            rw [hrest] at h
            simp only [Option.map_some', Option.some.injEq] at h
            subst h
            obtain ⟨ht1, ht2⟩ := ih _ _ t hrest
            have hpre : ∀ q ∈ (path ++ key) :: s.calls, (es q).2 = none := by
              intro q hq
              simp only [List.mem_cons] at hq
              rcases hq with hq | hq
              · rw [hq]; exact hok
              · exact hs1 herr q hq
            constructor
            · intro hr p hp
              simp only [LookupResult.shift, List.mem_append] at hp
              rcases hp with hp | hp
              · exact hpre p hp
              · exact ht1 hr p hp
            · intro e hr
              obtain ⟨l, p, hl, hlq, hp⟩ := ht2 e hr
              refine ⟨(path ++ key) :: s.calls ++ l, p, ?_, ?_, hp⟩
              · simp only [LookupResult.shift, hl, List.append_assoc]
              · intro q hq
                simp only [List.mem_append] at hq
                rcases hq with hq | hq
                · exact hpre q hq
                · exact hlq q hq
          · rw [recursiveLookup_subFails es kw path key keys sub n s e3 hs hes hsub herr] at h
            simp only [Option.some.injEq] at h
            subst h
            constructor
            · intro hr; simp at hr
            · intro e hr
              simp only [Option.some.injEq] at hr
              subst hr
              obtain ⟨l, p, hl, hlq, hp⟩ := hs2 e3 herr
              refine ⟨(path ++ key) :: l, p, by simp [hl], ?_, hp⟩
              intro q hq
              simp only [List.mem_cons] at hq
              rcases hq with hq | hq
              · rw [hq]; exact hok
              · exact hlq q hq
        · have he : (es (path ++ key)).2 = some e2 := by rw [hes]
          rw [recursiveLookup_listFails es kw path key keys n e2 hs he] at h
          simp only [Option.some.injEq] at h
          subst h
          constructor
          · intro hr; simp at hr
          · intro e hr
            simp only [Option.some.injEq] at hr
            subst hr
            exact ⟨[], path ++ key, rfl, by simp, he⟩
      · have hsf : HasSuffix key sep = false := by simpa using hs
        rw [recursiveLookup_leaf es kw path key keys n hsf] at h
        rcases hrest : recursiveLookup es kw n path keys with _ | t
        · rw [hrest] at h; simp at h
        rw [hrest] at h
        simp only [Option.map_some', Option.some.injEq] at h
        subst h
        simpa [LookupResult.shift] using ih _ _ t hrest

/-- Every listing call of a search before its last one succeeded. -/
theorem search_calls_before_last {E : Type} (es : Lister E) (kw : GoString) (fuel : Nat)
    (r : LookupResult E) (h : Search es kw fuel = some r) :
    ∀ l p, r.calls = l ++ [p] → ∀ q ∈ l, (es q).2 = none := by
  intro l p hl q hq
  unfold Search at h
  rcases hes : es sep with ⟨keys, _ | e⟩
  · have hroot : (es sep).2 = none := by rw [hes]
    rw [hes] at h
    simp only [] at h
    rcases hrec : recursiveLookup es kw fuel sep keys with _ | s
    · rw [hrec] at h; simp at h
    rw [hrec] at h
    simp only [Option.some.injEq] at h
    subst h
    simp only [] at hl
    obtain ⟨h1, h2⟩ := calls_shape es kw fuel sep keys s hrec
    rcases herr : s.err with _ | e
    · have hmem : q ∈ sep :: s.calls := by rw [hl]; simp [hq]
      simp only [List.mem_cons] at hmem
      rcases hmem with hmem | hmem
      · rw [hmem]; exact hroot
      · exact h1 herr q hmem
    · obtain ⟨l2, p2, hl2, hlq, _⟩ := h2 e herr
      rw [hl2, ← List.cons_append] at hl
      have hll : sep :: l2 = l := List.append_inj_left' hl rfl
      rw [← hll] at hq
      simp only [List.mem_cons] at hq
      rcases hq with hq | hq
      · rw [hq]; exact hroot
      · exact hlq q hq
  · rw [hes] at h
    simp only [Option.some.injEq] at h
    subst h
    simp only [] at hl
    have hll : ([] : List GoString) = l :=
      List.append_inj_left' (show [] ++ [sep] = l ++ [p] from hl) rfl
    rw [← hll] at hq
    simp at hq

/-- C13: on a finite hierarchy `Search` returns, for every budget from some
bound on, after exactly these listing calls: the root `"/"`, then the full
path of each folder entry in depth-first pre-order, cut right after the first
failing call.  Leaves are not listed (every path listed ends with the
separator), a path is listed once per folder entry, and every call before the
last one succeeded. -/
theorem C13_listing_calls_are_preorder_until_failure {E : Type} (es : Lister E)
    (kw : GoString) (h : Hierarchy E) (hd : DescribesStore es h) :
    ∃ N, ∀ fuel, N ≤ fuel →
      ∃ r, Search es kw fuel = some r ∧ r.calls = h.expectedCalls ∧
        (∀ p ∈ r.calls, HasSuffix p sep = true) ∧
        (∀ l p, r.calls = l ++ [p] → ∀ q ∈ l, (es q).2 = none) := by
  cases h with
  | listed t =>
    refine ⟨t.size + 1, fun fuel hf => ?_⟩
    have hs := search_of_describes es kw t fuel hd (by omega)
    refine ⟨_, hs, ?_, search_calls_hasSuffix es kw fuel _ hs,
      search_calls_before_last es kw fuel _ hs⟩
    simp only [Hierarchy.expectedCalls, walk_calls]
  | unlisted entries err =>
    have hroot : es sep = (entries, some err) := hd
    have hs : ∀ fuel, Search es kw fuel = some ⟨entries, some err, [sep]⟩ := by
      intro fuel
      simp only [Search, hroot]
    exact ⟨0, fun fuel _ => ⟨_, hs fuel, rfl, search_calls_hasSuffix es kw fuel _ (hs fuel),
      search_calls_before_last es kw fuel _ (hs fuel)⟩⟩

/-- C13, on the store with the leaves `foo` and `z`, the empty folder `c/` and
the failing listing of `/a/b/`: the calls are `/`, `/c/`, `/a/`, `/a/b/`. -/
theorem C13_witness_calls_of_failing_store :
    DescribesStore storeFailing (.listed treeFailing) ∧
    ∃ N, ∀ fuel, N ≤ fuel →
      ∃ r, Search storeFailing "foo".toList fuel = some r ∧
        r.calls = ["/".toList, "/c/".toList, "/a/".toList, "/a/b/".toList] ∧
        (∀ p ∈ r.calls, HasSuffix p sep = true) ∧
        (∀ l p, r.calls = l ++ [p] → ∀ q ∈ l, (storeFailing q).2 = none) :=
  ⟨describes_storeFailing,
    C13_listing_calls_are_preorder_until_failure storeFailing "foo".toList
      (.listed treeFailing) describes_storeFailing⟩

/-! ## Termination -/

/-- Below a path from which the folder nesting is well-founded, the lookup
over any part of the successful listing of that path returns. -/
theorem lookup_returns_of_acc {E : Type} (es : Lister E) (kw : GoString) :
    ∀ p : GoString, Acc (FolderOf es) p → (es p).2 = none →
      ∀ keys : List GoString, (∀ k ∈ keys, k ∈ (es p).1) →
        ∃ N r, recursiveLookup es kw N p keys = some r := by
  intro p hacc
  induction hacc with
  | intro p _ ih =>
    intro hok keys
    induction keys with
    | nil => intro _; exact ⟨1, _, recursiveLookup_nil es kw p 0⟩
    | cons key keys ihk =>
      intro hmem
      obtain ⟨N1, r1, h1⟩ := ihk (fun k hk => hmem k (List.mem_cons_of_mem _ hk))
      by_cases hs : HasSuffix key sep = true
      · rcases hes : es (p ++ key) with ⟨sub, _ | e⟩
        · have hchild : FolderOf es (p ++ key) p :=
            ⟨hok, key, hmem key (List.mem_cons_self _ _), hs, rfl⟩
          obtain ⟨N2, s, h2⟩ := ih (p ++ key) hchild (by rw [hes]) sub
            (fun k hk => by rw [hes]; exact hk)
          have h1m := recursiveLookup_mono es kw p keys r1 N1 (max N1 N2) (le_max_left _ _) h1
          have h2m := recursiveLookup_mono es kw (p ++ key) sub s N2 (max N1 N2)
            (le_max_right _ _) h2
          rcases herr : s.err with _ | e
          · refine ⟨max N1 N2 + 1,
              r1.shift (ownMatch kw p key ++ s.keys) ((p ++ key) :: s.calls), ?_⟩
            rw [recursiveLookup_subOk es kw p key keys sub _ s hs hes h2m herr, h1m]
            rfl
          · exact ⟨max N1 N2 + 1, _,
              recursiveLookup_subFails es kw p key keys sub _ s e hs hes h2m herr⟩
        · exact ⟨1, _, recursiveLookup_listFails es kw p key keys 0 e hs (by rw [hes])⟩
      · have hsf : HasSuffix key sep = false := by simpa using hs
        refine ⟨N1 + 1, r1.shift (ownMatch kw p key) [], ?_⟩
        rw [recursiveLookup_leaf es kw p key keys N1 hsf, h1]
        rfl

/-- A lister that describes a tree has a well-founded folder nesting below every folder. -/
theorem acc_of_describes {E : Type} (es : Lister E) :
    ∀ (t : Listing E) (p : GoString), Describes es p t →
      ∀ key ∈ t.names, HasSuffix key sep = true → Acc (FolderOf es) (p ++ key) := by
  intro t
  induction t with
  | nil => intro p _ key hk; simp [Listing.names] at hk
  | leaf name rest ih =>
    intro p hd key hk hs
    simp only [Listing.names, List.mem_cons] at hk
    rcases hk with hk | hk
    · rw [hk, hd.1] at hs; simp at hs
    · exact ih p hd.2 key hk hs
  | folder name sub rest ihs ihr =>
    intro p hd key hk hs
    obtain ⟨_, hes, hsub, hrest⟩ := hd
    simp only [Listing.names, List.mem_cons] at hk
    rcases hk with hk | hk
    · rw [hk]
      refine Acc.intro _ (fun q hq => ?_)
      obtain ⟨_, key2, hk2, hs2, hq2⟩ := hq
      rw [hes] at hk2
      rw [hq2]
      exact ihs (p ++ name) hsub key2 hk2 hs2
    · exact ihr p hrest key hk hs
  | failing name err rest ih =>
    intro p hd key hk hs
    obtain ⟨_, hes, hrest⟩ := hd
    simp only [Listing.names, List.mem_cons] at hk
    rcases hk with hk | hk
    · rw [hk]
      refine Acc.intro _ (fun q hq => ?_)
      rw [hq.1] at hes
      simp at hes
    · exact ih p hrest key hk hs

theorem acc_root_of_describes {E : Type} (es : Lister E) (h : Hierarchy E)
    (hd : DescribesStore es h) : Acc (FolderOf es) sep := by
  refine Acc.intro _ (fun q hq => ?_)
  obtain ⟨hok, key, hk, hs, hq2⟩ := hq
  cases h with
  | listed t =>
    rw [hd.1] at hk
    rw [hq2]
    exact acc_of_describes es t sep hd.2 key hk hs
  | unlisted entries err =>
    have hroot : es sep = (entries, some err) := hd
    rw [hroot] at hok
    simp at hok

/-- C14: for a lister whose folder nesting is well-founded from the root
(listings are finite lists by their type), `Search` is total: for every
keyword there is a budget from which it returns; and so does `recursiveLookup`
on the listing of every path with a well-founded nesting below it. -/
theorem C14_search_terminates_on_finite_hierarchy {E : Type} (es : Lister E) (kw : GoString)
    (hwf : Acc (FolderOf es) sep) :
    (∃ N, ∀ fuel, N ≤ fuel → ∃ r, Search es kw fuel = some r) ∧
    (∀ p, Acc (FolderOf es) p → (es p).2 = none →
      ∃ N, ∀ fuel, N ≤ fuel → ∃ r, recursiveLookup es kw fuel p (es p).1 = some r) := by
  have hrec : ∀ p, Acc (FolderOf es) p → (es p).2 = none →
      ∃ N, ∀ fuel, N ≤ fuel → ∃ r, recursiveLookup es kw fuel p (es p).1 = some r := by
    intro p hacc hok
    obtain ⟨N, r, h⟩ := lookup_returns_of_acc es kw p hacc hok (es p).1 (fun _ hk => hk)
    exact ⟨N, fun fuel hf => ⟨r, recursiveLookup_mono es kw p _ r N fuel hf h⟩⟩
  refine ⟨?_, hrec⟩
  rcases hroot : (es sep).2 with _ | e
  · obtain ⟨N, hN⟩ := hrec sep hwf hroot
    refine ⟨N, fun fuel hf => ?_⟩
    obtain ⟨r, hr⟩ := hN fuel hf
    refine ⟨⟨r.keys, r.err, sep :: r.calls⟩, ?_⟩
    unfold Search
    rcases hes : es sep with ⟨keys, _ | e⟩
    · rw [hes] at hr
      simp only [hr]
    · rw [hes] at hroot; simp at hroot
  · exact ⟨0, fun fuel _ => ⟨_, search_root_fails es kw fuel e hroot⟩⟩

/-- C14, on the store holding only `a/b/foo`, whose folder nesting is that of its tree. -/
theorem C14_witness_abfoo_terminates :
    Acc (FolderOf storeABFoo) sep ∧
    ∃ N, ∀ fuel, N ≤ fuel → ∃ r, Search storeABFoo "foo".toList fuel = some r :=
  ⟨acc_root_of_describes storeABFoo (.listed treeABFoo) describes_storeABFoo,
    (C14_search_terminates_on_finite_hierarchy storeABFoo "foo".toList
      (acc_root_of_describes storeABFoo (.listed treeABFoo) describes_storeABFoo)).1⟩

end KvSearch
